import Mathlib

namespace HttpRouter

/-- Opaque handler reference. The Go `Handle` is a function pointer; handlers
registered through the public API are non-nil, and we model them as natural
number identifiers. -/
abbrev Handle := Nat

/-- Node kinds, from `tree.go` (`static`, `param`, `catchAll`). -/
inductive NType where
  | static
  | param
  | catchAll
deriving DecidableEq, Repr

/-- The trie node, from `tree.go`:
`path`, `indices`, `children`, `wildChild`, `nType`, `handle`, `priority`.
The Go `handle map[string]Handle` may be nil, modelled as `Option` of an
association list. -/
inductive Node where
  | mk (path : List Char) (indices : List Char) (children : List Node)
       (wildChild : Bool) (nType : NType)
       (handle : Option (List (String × Handle))) (priority : Nat)

namespace Node

def path : Node → List Char
  | mk p _ _ _ _ _ _ => p

def indices : Node → List Char
  | mk _ i _ _ _ _ _ => i

def children : Node → List Node
  | mk _ _ c _ _ _ _ => c

def wildChild : Node → Bool
  | mk _ _ _ w _ _ _ => w

def nType : Node → NType
  | mk _ _ _ _ t _ _ => t

def handle : Node → Option (List (String × Handle))
  | mk _ _ _ _ _ h _ => h

def priority : Node → Nat
  | mk _ _ _ _ _ _ p => p

@[simp] theorem path_mk (p i c w t h pr) : (Node.mk p i c w t h pr).path = p := rfl

@[simp] theorem indices_mk (p i c w t h pr) : (Node.mk p i c w t h pr).indices = i := rfl

@[simp] theorem children_mk (p i c w t h pr) : (Node.mk p i c w t h pr).children = c := rfl

@[simp] theorem wildChild_mk (p i c w t h pr) : (Node.mk p i c w t h pr).wildChild = w := rfl

@[simp] theorem nType_mk (p i c w t h pr) : (Node.mk p i c w t h pr).nType = t := rfl

@[simp] theorem handle_mk (p i c w t h pr) : (Node.mk p i c w t h pr).handle = h := rfl

@[simp] theorem priority_mk (p i c w t h pr) : (Node.mk p i c w t h pr).priority = pr := rfl

end Node


/-- The panics raised by `tree.go`, one constructor per panic site, plus
`runtimeError` for Go runtime faults (out-of-range index / slice bounds)
reachable on inputs that violate the caller contract. -/
inductive GoPanic where
  | wildcardConflict      -- "conflict with wildcard route"            (addRoute, line 90)
  | duplicatePath         -- "a Handle is already registered ..."      (addRoute, line 135)
  | childConflict         -- "wildcard route conflicts with existing children" (insertChild, line 154)
  | emptyWildcardName     -- "wildcards must be named with a non-empty name"   (insertChild, line 164)
  | catchAllConflict      -- "catchAlls are only allowed at the end of the path" (insertChild, line 200)
  | noSlashBeforeCatchAll -- "no / before catchAll"                    (insertChild, line 206)
  | runtimeError          -- Go runtime index/slice panic
deriving DecidableEq, Repr

/-- Outcome of a registration call. Go mutates the tree in place, so a panic
leaves the mutations made before the panic in the tree: both constructors
carry the tree as mutated so far. -/
inductive Res where
  | ok (t : Node)
  | panicked (e : GoPanic) (t : Node)

def Res.tree : Res → Node
  | .ok t => t
  | .panicked _ t => t

def Res.err : Res → Option GoPanic
  | .ok _ => none
  | .panicked e _ => some e

/-- Result of `getValue`. `panicked` is the "unknown node type" panic plus Go
runtime index panics, reachable only on malformed trees. -/
inductive LookupRes where
  | found (handle : Option Handle) (vars : Option (List (List Char × List Char))) (tsr : Bool)
  | panicked
deriving DecidableEq, Repr

abbrev Vars := Option (List (List Char × List Char))

/-- Association-list lookup for the per-method handle map (`n.handle[method]`
with a non-nil map). -/
def alookup : List (String × Handle) → String → Option Handle
  | [], _ => none
  | (k, v) :: rest, m => if k = m then some v else alookup rest m

/-- Association-list update for the per-method handle map
(`n.handle[method] = handle`). -/
def aset : List (String × Handle) → String → Handle → List (String × Handle)
  | [], m, h => [(m, h)]
  | (k, v) :: rest, m, h => if k = m then (m, h) :: rest else (k, v) :: aset rest m h

/-- `n.handle[method]`: nil map or missing key yield nil. -/
def mlookup : Option (List (String × Handle)) → String → Option Handle
  | none, _ => none
  | some l, m => alookup l m

/-- `vars[name] = value` on the captured-variable map. -/
def vsetA : List (List Char × List Char) → List Char → List Char → List (List Char × List Char)
  | [], k, val => [(k, val)]
  | (k', v') :: rest, k, val =>
    if k' = k then (k, val) :: rest else (k', v') :: vsetA rest k val

/-- Writing to the lazily created variable map (`if vars == nil { vars = map… }`). -/
def vset (v : Vars) (k val : List Char) : Vars :=
  match v with
  | none => some [(k, val)]
  | some l => some (vsetA l k val)

/-- Variable-map lookup, for stating properties of captured values. -/
def vlookup : Vars → List Char → Option (List Char)
  | none, _ => none
  | some [], _ => none
  | some ((k, v) :: rest), m => if k = m then some v else vlookup (some rest) m

/-- `path[i]` (all call sites are in bounds; Go would panic out of range). -/
def pget (p : List Char) (i : Nat) : Char := (p.get? i).getD ' '

/-- Go slice `path[a:b]`. -/
def seg (p : List Char) (a b : Nat) : List Char := (p.take b).drop a

/-- Length of the longest common byte prefix (`tree.go` lines 54-56). -/
def lcpLen : List Char → List Char → Nat
  | c :: cs, d :: ds => if c = d then lcpLen cs ds + 1 else 0
  | _, _ => 0

/-- Index of the first `:` or `*` in a list, if any. -/
def findWild : List Char → Option Nat
  | [] => none
  | c :: rest => if c = ':' ∨ c = '*' then some 0 else (findWild rest).map (· + 1)

theorem findWild_lt {l : List Char} {d : Nat} (h : findWild l = some d) : d < l.length := by
  induction l generalizing d with
  | nil => simp [findWild] at h
  | cons c rest ih =>
    simp only [findWild] at h
    split at h
    · cases h; simp
    · simp only [Option.map_eq_some'] at h
      obtain ⟨d', hd', rfl⟩ := h
      have := ih hd'
      simp; omega

namespace Node

def setPath (n : Node) (p : List Char) : Node :=
  match n with
  | mk _ i c w t h pr => mk p i c w t h pr

def setIdx (n : Node) (i : List Char) : Node :=
  match n with
  | mk p _ c w t h pr => mk p i c w t h pr

def setChildren (n : Node) (c : List Node) : Node :=
  match n with
  | mk p i _ w t h pr => mk p i c w t h pr

def setWild (n : Node) (w : Bool) : Node :=
  match n with
  | mk p i c _ t h pr => mk p i c w t h pr

def setHandle (n : Node) (h : Option (List (String × Handle))) : Node :=
  match n with
  | mk p i c w t _ pr => mk p i c w t h pr

/-- `n.priority++`. -/
def bumpPrio (n : Node) : Node :=
  match n with
  | mk p i c w t h pr => mk p i c w t h (pr + 1)

end Node

/-- `&node{}`: the Go zero value. -/
def emptyNode : Node := .mk [] [] [] false .static none 0

/-- Swap two positions of a list (used only with both positions in bounds). -/
def listSwap {α : Type} (l : List α) (a b : Nat) : List α :=
  match l.get? a, l.get? b with
  | some x, some y => (l.set a y).set b x
  | _, _ => l

/-- The move-to-front loop of `incrementChildPrio` (`tree.go` lines 34-38):
bubble position `i` left past siblings of strictly smaller priority,
swapping `children` and `indices` together. -/
def bubble : List Node → List Char → Nat → Nat → List Node × List Char × Nat
  | ch, idx, 0, _ => (ch, idx, 0)
  | ch, idx, i + 1, prio =>
    match ch.get? i with
    | some nj =>
      if nj.priority < prio then
        bubble (listSwap ch i (i + 1)) (listSwap idx i (i + 1)) i prio
      else (ch, idx, i + 1)
    | none => (ch, idx, i + 1)

/-- `incrementChildPrio` (`tree.go` lines 31-40): computes
`prio := children[i].priority + 1`, reorders, and returns the adjusted
position. (It does not itself increment any priority field.) -/
def incrementChildPrio (n : Node) (i : Nat) : Node × Nat :=
  let prio := (match n.children.get? i with | some c => c.priority | none => 0) + 1
  let r := bubble n.children n.indices i prio
  ((n.setChildren r.1).setIdx r.2.1, r.2.2)

/-- First position in `indices` holding byte `c`
(`for i, index := range n.indices { if c == index … } }`). -/
def findCharIdx : List Char → Char → Option Nat
  | [], _ => none
  | x :: rest, c => if x = c then some 0 else (findCharIdx rest c).map (· + 1)

/-- `insertChild` (`tree.go` lines 145-244). The Go loop scans `path` from
index `scanFrom` for the next wildcard byte, mutating a chain of nodes; `n`
is the node currently being written, `offset` the start of the not yet
written segment. Returns the subtree rooted at the entry node, mutations
before a panic included. -/
def insertChildF (method : String) (h : Handle) (path : List Char) :
    Nat → Node → Nat → Nat → Option Res
  | 0, _, _, _ => none
  | fuel + 1, n, offset, scanFrom =>
    match findWild (path.drop scanFrom) with
    | none =>
      -- lines 238-243: remaining literal part becomes the leaf
      some (.ok (((n.setPath (path.drop offset)).setHandle (some [(method, h)])).bumpPrio))
    | some d =>
      let i := scanFrom + d
      let b := pget path i
      if n.children.isEmpty = false then some (.panicked .childConflict n)  -- line 154
      else
        let k := i + 1 + ((path.drop (i + 1)).takeWhile (fun c => c ≠ '/')).length
        if k - i = 1 then some (.panicked .emptyWildcardName n)             -- line 164
        else if b = ':' then
          -- lines 167-196 (param)
          if 0 < i ∧ offset > i then some (.panicked .runtimeError n)  -- Go slice path[offset:i]
          else
            let n1 := if 0 < i then n.setPath (seg path offset i) else n
            let off1 := if 0 < i then i else offset
            if k < path.length then
              -- wildcard followed by a further subpath: param node plus fresh child,
              -- the scan continues at i+1 writing into the fresh child
              let param := Node.mk (seg path off1 k) [] [] false .param none 0
              match insertChildF method h path fuel emptyNode k (i + 1) with
              | none => none
              | some (.ok t) =>
                some (.ok ((((n1.setChildren [((param.setChildren [t]).bumpPrio)]).setWild
                  true).bumpPrio)))
              | some (.panicked e t) =>
                some (.panicked e ((((n1.setChildren
                  [((param.setChildren [t]).bumpPrio)]).setWild true).bumpPrio)))
            else
              -- wildcard reaches the path end: the param node itself is written
              -- by the continued scan
              let param := Node.mk [] [] [] false .param none 0
              match insertChildF method h path fuel param off1 (i + 1) with
              | none => none
              | some (.ok t) => some (.ok (((n1.setChildren [t]).setWild true).bumpPrio))
              | some (.panicked e t) =>
                some (.panicked e (((n1.setChildren [t]).setWild true).bumpPrio))
        else
          -- lines 197-233 (catchAll)
          if path.length ≠ k then some (.panicked .catchAllConflict n)      -- line 200
          else if i = 0 then some (.panicked .runtimeError n)    -- Go: path[i-1] with i = 0
          else if pget path (i - 1) ≠ '/' then
            some (.panicked .noSlashBeforeCatchAll n)                       -- line 206
          else if offset > i - 1 then
            some (.panicked .runtimeError n)                 -- Go slice path[offset:i-1]
          else
            let value := Node.mk (path.drop (i - 1)) [] [] false .catchAll
              (some [(method, h)]) 1
            let holder := Node.mk [] [] [value] true .catchAll none 1
            some (.ok ((((n.setPath (seg path offset (i - 1))).setChildren [holder]).setIdx
              [pget path (i - 1)]).bumpPrio))

/-- `n.insertChild(method, path, handle)`. The scan position strictly grows
and stays at most `path.length`, so `path.length + 1` fuel always suffices. -/
def insertChild (n : Node) (method : String) (path : List Char) (h : Handle) : Option Res :=
  insertChildF method h path (path.length + 1) n 0 0

/-- `addRoute` (`tree.go` lines 44-143), with explicit fuel bounding the
recursion depth: `none` means the fuel ran out (the Go code can recurse
without bound on trees not reachable through the public contract). -/
def addRouteF (method : String) (h : Handle) : Nat → Node → List Char → Option Res
  | 0, _, _ => none
  | fuel + 1, n, path =>
    if n.path.isEmpty ∧ n.children.isEmpty then
      insertChild n method path h                                   -- lines 45-48
    else
      let i := lcpLen path n.path
      -- lines 59-72: split edge (the split child's nType is the zero value)
      let n1 := if i < n.path.length then
          Node.mk (path.take i) [pget n.path i]
            [Node.mk (n.path.drop i) n.indices n.children n.wildChild .static n.handle
              n.priority]
            false n.nType none n.priority
        else n
      if i < path.length then
        let p := path.drop i
        if n1.wildChild then
          -- lines 78-91
          let n2 := n1.bumpPrio
          match n2.children with
          | [] => some (.panicked .runtimeError n2)                 -- Go: n.children[0]
          | w :: rest =>
            if w.path.isPrefixOf p then
              if w.path.length ≥ p.length ∨ pget p w.path.length = '/' then
                match addRouteF method h fuel w p with
                | none => none
                | some (.ok w') => some (.ok (n2.setChildren (w' :: rest)))
                | some (.panicked e w') => some (.panicked e (n2.setChildren (w' :: rest)))
              else some (.panicked .wildcardConflict n2)
            else some (.panicked .wildcardConflict n2)
        else
          let c := pget p 0
          if n1.nType = .param ∧ c = '/' ∧ n1.children.length = 1 then
            -- lines 95-100
            let n2 := n1.bumpPrio
            match n2.children with
            | [] => some (.panicked .runtimeError n2)
            | w :: rest =>
              match addRouteF method h fuel w p with
              | none => none
              | some (.ok w') => some (.ok (n2.setChildren (w' :: rest)))
              | some (.panicked e w') => some (.panicked e (n2.setChildren (w' :: rest)))
          else
            match findCharIdx n1.indices c with
            | some j =>
              -- lines 103-111
              let r := incrementChildPrio n1 j
              let n2 := r.1.bumpPrio
              match n2.children.get? r.2 with
              | none => some (.panicked .runtimeError n2)
              | some child =>
                match addRouteF method h fuel child p with
                | none => none
                | some (.ok c') => some (.ok (n2.setChildren (n2.children.set r.2 c')))
                | some (.panicked e c') =>
                  some (.panicked e (n2.setChildren (n2.children.set r.2 c')))
            | none =>
              if c ≠ ':' ∧ c ≠ '*' then
                -- lines 114-121: append a fresh child indexed by c, then fill it
                let idx2 := n1.indices ++ [c]
                let ch2 := n1.children ++ [emptyNode]
                let r := incrementChildPrio ((n1.setIdx idx2).setChildren ch2)
                  (idx2.length - 1)
                let n2 := r.1.bumpPrio
                match insertChild emptyNode method p h with
                | none => none
                | some (.ok t) => some (.ok (n2.setChildren (n2.children.set r.2 t)))
                | some (.panicked e t) =>
                  some (.panicked e (n2.setChildren (n2.children.set r.2 t)))
              else
                insertChild n1 method p h                           -- line 124
      else if i = path.length then
        -- lines 126-140
        match n1.handle with
        | none => some (.ok ((n1.setHandle (some [(method, h)])).bumpPrio))
        | some hm =>
          if (alookup hm method).isSome then some (.panicked .duplicatePath n1)
          else some (.ok ((n1.setHandle (some (aset hm method h))).bumpPrio))
      else some (.ok n1)

theorem sizeOf_mem_children {c n : Node} (h : c ∈ Node.children n) : sizeOf c < sizeOf n := by
  cases n with
  | mk p i ch w t hd pr =>
    simp only [Node.children] at h
    have := List.sizeOf_lt_of_mem h
    simp only [Node.mk.sizeOf_spec]
    omega

/-- `getValueWithVars` (`tree.go` lines 255-367). The Go walking loop is the
recursion: each iteration consumes the node's fragment and either returns,
descends into the wildcard child, or recurses into the indexed child. The
fuel bounds the number of iterations; each one either consumes part of the
path or descends at least one tree level, so enough fuel always exists. -/
def getValueF (method : String) : Nat → Node → List Char → Vars → Option LookupRes
  | 0, _, _, _ => none
  | fuel + 1, n, path, v =>
    if n.path.isPrefixOf path then
      let p := path.drop n.path.length
      if p.isEmpty then
        -- lines 260-280: path fully consumed here
        match mlookup n.handle method with
        | some hd => some (.found (some hd) v false)
        | none =>
          match findCharIdx n.indices '/' with
          | some j =>
            match n.children.get? j with
            | none => some .panicked
            | some ch =>
              if ch.path = ['/'] ∧ ch.handle.isSome then some (.found none v true)
              else if ch.nType = .catchAll then
                match ch.children with
                | cc :: _ => some (.found none v ((mlookup cc.handle method).isSome))
                | [] => some .panicked    -- Go: n.children[0] out of range
              else some (.found none v false)
          | none => some (.found none v false)
      else
        if n.wildChild then
          -- lines 283-345
          match n.children with
          | [] => some .panicked          -- Go: n.children[0] out of range
          | w :: _ =>
            match w.nType with
            | .param =>
              let k := (p.takeWhile (fun c => c ≠ '/')).length
              if w.path.isEmpty then some .panicked  -- Go: n.path[1:] out of range
              else
              let v1 := vset v (w.path.drop 1) (p.take k)
              if k < p.length then
                match w.children with
                | c :: _ => getValueF method fuel c (p.drop k) v1
                | [] => some (.found none v1 (decide (p.length = k + 1)))
              else
                match mlookup w.handle method with
                | some hd => some (.found (some hd) v1 false)
                | none =>
                  match w.children with
                  | [c] => some (.found none v1 (decide (c.path = ['/']) &&
                      (mlookup c.handle method).isSome))
                  | _ => some (.found none v1 false)
            | .catchAll =>
              if w.path.length < 2 then some .panicked  -- Go: n.path[2:] out of range
              else some (.found (mlookup w.handle method) (vset v (w.path.drop 2) p) false)
            | .static => some .panicked   -- line 344: panic("unknown node type")
        else
          let c := pget p 0
          match findCharIdx n.indices c with
          | some j =>
            match n.children.get? j with
            | some child => getValueF method fuel child p v
            | none => some .panicked
          | none => some (.found none v (decide (p = ['/']) && (mlookup n.handle method).isSome))
    else
      -- line 365
      some (.found none v ((decide (path.length + 1 = n.path.length) &&
        decide (pget n.path path.length = '/') && n.handle.isSome) || decide (path = ['/'])))

/-- `n.getValue(method, path)`, with fuel generous for any tree built through
the public contract. -/
def getValue (n : Node) (method : String) (path : List Char) : Option LookupRes :=
  getValueF method (2 * path.length + 16) n path none

/-- Fuel that suffices for every tree reachable through the public contract. -/
def addRoute (n : Node) (method : String) (path : List Char) (h : Handle) : Option Res :=
  addRouteF method h (2 * path.length + 8) n path

/-- Register a list of routes in order, stopping at the first panic or fuel
exhaustion. -/
def addList : Node → List (String × List Char × Handle) → Option Res
  | n, [] => some (.ok n)
  | n, (m, p, h) :: rest =>
    match addRoute n m p h with
    | some (.ok n') => addList n' rest
    | r => r

/-- Build a tree from scratch. -/
def build (rs : List (String × List Char × Handle)) : Option Res := addList emptyNode rs

def buildOk (rs : List (String × List Char × Handle)) : Option Node :=
  match build rs with
  | some (.ok t) => some t
  | _ => none

def buildErr (rs : List (String × List Char × Handle)) : Option GoPanic :=
  match build rs with
  | some (.panicked e _) => some e
  | _ => none

/-- Look a path up in the tree built from `rs` (when the build succeeds). -/
def lookupB (rs : List (String × List Char × Handle)) (method : String) (p : List Char) :
    Option LookupRes :=
  (buildOk rs).bind (fun t => getValue t method p)

def str (s : String) : List Char := s.toList


/-- Handler component of a lookup outcome. -/
def resHandler : Option LookupRes → Option Handle
  | some (.found h _ _) => h
  | _ => none

/-- TSR component of a lookup outcome (`none` when the lookup did not return
normally). -/
def resTsr : Option LookupRes → Option Bool
  | some (.found _ _ t) => some t
  | _ => none

/-- Variable-map component of a lookup outcome. -/
def resVars : Option LookupRes → Option Vars
  | some (.found _ v _) => some v
  | _ => none

/-- Did the build end in a Go panic? -/
def buildPanicked (rs : List (String × List Char × Handle)) : Bool :=
  match build rs with
  | some (.panicked _ _) => true
  | _ => false

def c1Routes : List (String × List Char × Handle) :=
  [("GET", str "/hi", 1), ("GET", str "/search/:query", 2),
   ("GET", str "/cmd/:tool/", 3), ("GET", str "/src/*filepath", 4)]

/-- C1: for the tree built from `/hi`, `/search/:query`, `/cmd/:tool/`,
`/src/*filepath` under one method, `getValue` on `/hi/`, `/search/gopher/`
and `/cmd/vet` returns no handler with `tsr = true`, and on `/nope`
returns no handler with `tsr = false`. -/
theorem tsr_recommendation_examples :
    (buildOk c1Routes).isSome = true ∧
    resHandler (lookupB c1Routes "GET" (str "/hi/")) = none ∧
    resTsr (lookupB c1Routes "GET" (str "/hi/")) = some true ∧
    resHandler (lookupB c1Routes "GET" (str "/search/gopher/")) = none ∧
    resTsr (lookupB c1Routes "GET" (str "/search/gopher/")) = some true ∧
    resHandler (lookupB c1Routes "GET" (str "/cmd/vet")) = none ∧
    resTsr (lookupB c1Routes "GET" (str "/cmd/vet")) = some true ∧
    resHandler (lookupB c1Routes "GET" (str "/nope")) = none ∧
    resTsr (lookupB c1Routes "GET" (str "/nope")) = some false := by
  decide


section AccessorLemmas

variable (n : Node)

@[simp] theorem Node.path_setChildren (c : List Node) : (n.setChildren c).path = n.path := by
  cases n; rfl

@[simp] theorem Node.indices_setChildren (c : List Node) : (n.setChildren c).indices = n.indices := by
  cases n; rfl

@[simp] theorem Node.children_setChildren (c : List Node) : (n.setChildren c).children = c := by
  cases n; rfl

@[simp] theorem Node.wild_setChildren (c : List Node) : (n.setChildren c).wildChild = n.wildChild := by
  cases n; rfl

@[simp] theorem Node.nType_setChildren (c : List Node) : (n.setChildren c).nType = n.nType := by
  cases n; rfl

@[simp] theorem Node.handle_setChildren (c : List Node) : (n.setChildren c).handle = n.handle := by
  cases n; rfl

@[simp] theorem Node.prio_setChildren (c : List Node) : (n.setChildren c).priority = n.priority := by
  cases n; rfl

@[simp] theorem Node.path_bumpPrio : n.bumpPrio.path = n.path := by cases n; rfl

@[simp] theorem Node.indices_bumpPrio : n.bumpPrio.indices = n.indices := by cases n; rfl

@[simp] theorem Node.children_bumpPrio : n.bumpPrio.children = n.children := by cases n; rfl

@[simp] theorem Node.wild_bumpPrio : n.bumpPrio.wildChild = n.wildChild := by cases n; rfl

@[simp] theorem Node.nType_bumpPrio : n.bumpPrio.nType = n.nType := by cases n; rfl

@[simp] theorem Node.handle_bumpPrio : n.bumpPrio.handle = n.handle := by cases n; rfl

@[simp] theorem Node.prio_bumpPrio : n.bumpPrio.priority = n.priority + 1 := by cases n; rfl

@[simp] theorem Node.path_setIdx (i : List Char) : (n.setIdx i).path = n.path := by cases n; rfl

@[simp] theorem Node.indices_setIdx (i : List Char) : (n.setIdx i).indices = i := by cases n; rfl

@[simp] theorem Node.children_setIdx (i : List Char) : (n.setIdx i).children = n.children := by
  cases n; rfl

@[simp] theorem Node.wild_setIdx (i : List Char) : (n.setIdx i).wildChild = n.wildChild := by
  cases n; rfl

@[simp] theorem Node.nType_setIdx (i : List Char) : (n.setIdx i).nType = n.nType := by cases n; rfl

@[simp] theorem Node.handle_setIdx (i : List Char) : (n.setIdx i).handle = n.handle := by
  cases n; rfl

@[simp] theorem Node.prio_setIdx (i : List Char) : (n.setIdx i).priority = n.priority := by
  cases n; rfl

end AccessorLemmas

/-- C2, main part: whenever a lookup reaches a node with a catch-all wildcard
child while path bytes remain, the whole remaining path (leading separator
included) is bound to the declared name (`w.path` without its `/*`), the
handler bound at the value node is returned, and no further path inspection
happens (the result depends on nothing else). -/
theorem catchall_terminal_step (method : String) (f : Nat) (n w : Node) (rest : List Node)
    (path : List Char) (v : Vars)
    (hpre : n.path.isPrefixOf path = true)
    (hne : (path.drop n.path.length).isEmpty = false)
    (hw : n.wildChild = true)
    (hch : n.children = w :: rest)
    (hty : w.nType = .catchAll)
    (hlen2 : 2 ≤ w.path.length) :
    getValueF method (f + 1) n path v =
      some (.found (mlookup w.handle method)
        (vset v (w.path.drop 2) (path.drop n.path.length)) false) := by
  rw [getValueF]
  simp only [hpre, if_true, hne, hw, hch, hty]
  rw [if_neg (show ¬ w.path.length < 2 by omega)]
  rfl


/-- Witness for C2 at the tree of `"/files/:dir/*filepath"` and the lookup
`"/files/js/inc/framework.js"`: the full lookup returns
`{dir: "js", filepath: "/inc/framework.js"}`, and the catch-all step theorem
applied at the catch-all holder node of that tree yields exactly that final
binding. -/
theorem catchall_terminal_step_witness :
    lookupB [("GET", str "/files/:dir/*filepath", 1)] "GET"
        (str "/files/js/inc/framework.js") =
      some (.found (some 1) (some [(str "dir", str "js"),
        (str "filepath", str "/inc/framework.js")]) false) ∧
    getValueF "GET" 3
        (Node.mk [] [] [Node.mk (str "/*filepath") [] [] false .catchAll
          (some [("GET", 1)]) 1] true .catchAll none 1)
        (str "/inc/framework.js") (some [(str "dir", str "js")]) =
      some (.found (some 1) (some [(str "dir", str "js"),
        (str "filepath", str "/inc/framework.js")]) false) := by
  constructor
  · decide
  · rw [catchall_terminal_step "GET" 2
      (Node.mk [] [] [Node.mk (str "/*filepath") [] [] false .catchAll
        (some [("GET", 1)]) 1] true .catchAll none 1)
      (Node.mk (str "/*filepath") [] [] false .catchAll (some [("GET", 1)]) 1) []
      (str "/inc/framework.js") (some [(str "dir", str "js")])
      (by decide) (by decide) rfl rfl rfl (by decide)]
    decide


/-- C3, main part: when `addRoute` reaches a node with a wildcard child and
path bytes remain past the node fragment, it must descend into that child;
the step succeeds (delegating to the child) exactly when the child fragment
is a prefix of the remaining path and is either as long as it or followed
by `/`; otherwise the call panics with the wildcard-conflict panic. -/
theorem wildcard_descend_or_conflict (method : String) (h : Handle) (f : Nat)
    (n w : Node) (rest : List Node) (path : List Char)
    (hne : n.path ≠ [])
    (hlcp : lcpLen path n.path = n.path.length)
    (hlt : n.path.length < path.length)
    (hw : n.wildChild = true)
    (hch : n.children = w :: rest) :
    addRouteF method h (f + 1) n path =
      if w.path.isPrefixOf (path.drop n.path.length) = true ∧
         (w.path.length ≥ (path.drop n.path.length).length ∨
           pget (path.drop n.path.length) w.path.length = '/')
      then match addRouteF method h f w (path.drop n.path.length) with
           | none => none
           | some (.ok w') => some (.ok (n.bumpPrio.setChildren (w' :: rest)))
           | some (.panicked e w') =>
             some (.panicked e (n.bumpPrio.setChildren (w' :: rest)))
      else some (.panicked .wildcardConflict n.bumpPrio) := by
  rw [addRouteF]
  rw [if_neg (fun hc => hne (List.isEmpty_iff.mp hc.1))]
  simp only [hlcp, Nat.lt_irrefl, if_false, if_pos hlt, hw, if_true,
    Node.children_bumpPrio, hch]
  split_ifs with h1 h2 h3 <;> first | rfl | tauto


/-- The tree built by registering `"/cmd/:tool/:sub"` alone (root node). -/
def c3Tool : Node :=
  .mk (str ":tool") []
    [.mk (str "/") [] [.mk (str ":sub") [] [] false .param (some [("GET", 1)]) 1]
      true .static none 1]
    false .param none 1

def c3Root : Node := .mk (str "/cmd/") [] [c3Tool] true .static none 1

/-- Witness for C3: the three concrete conflict scenarios of the claim, and
the step theorem applied at the root of the `"/cmd/:tool/:sub"` tree while
registering `"/cmd/vet"`, producing the wildcard-conflict panic. -/
theorem wildcard_descend_or_conflict_witness :
    buildErr [("GET", str "/cmd/:tool/:sub", 1), ("GET", str "/cmd/vet", 2)] =
      some .wildcardConflict ∧
    buildErr [("GET", str "/user_:name", 1), ("GET", str "/user_x", 2)] =
      some .wildcardConflict ∧
    buildErr [("GET", str "/cmd/vet", 1), ("GET", str "/cmd/:tool/:sub", 2)] =
      some .childConflict ∧
    buildOk [("GET", str "/cmd/:tool/:sub", 1)] = some c3Root ∧
    addRouteF "GET" 2 9 c3Root (str "/cmd/vet") =
      some (.panicked .wildcardConflict c3Root.bumpPrio) := by
  refine ⟨by decide, by decide, by decide, by rfl, ?_⟩
  rw [wildcard_descend_or_conflict "GET" 2 8 c3Root c3Tool [] (str "/cmd/vet")
    (by decide) (by decide) (by decide) rfl rfl]
  rfl


/-- C7, counterexample: registering `"/cmd/:tool/:sub"` and then
`"/cmd/vet"` makes `addRoute` abort with a Go panic (the model's
`Res.panicked`, the image of Go `panic(...)`); no error value is returned —
the Go signature `addRoute(method, path string, handle Handle)` has no
result at all, so the conflict is not reported as a `Result`/error value. -/
theorem conflict_signalled_by_panic :
    buildPanicked [("GET", str "/cmd/:tool/:sub", 1), ("GET", str "/cmd/vet", 2)] = true := by
  decide

/-- C7, amended: each registration-time structural conflict of the taxonomy
aborts `addRoute` with its own distinguishable Go panic (recoverable by a
caller via `recover`), rather than returning an error value. -/
theorem conflict_taxonomy_panics :
    buildErr [("GET", str "/", 1), ("GET", str "/", 2)] = some .duplicatePath ∧
    buildErr [("GET", str "/user:", 1)] = some .emptyWildcardName ∧
    buildErr [("GET", str "/src/*filepath/x", 1)] = some .catchAllConflict ∧
    buildErr [("GET", str "/cmd/vet", 1), ("GET", str "/cmd/:tool/:sub", 2)] =
      some .childConflict ∧
    buildErr [("GET", str "/cmd/:tool/:sub", 1), ("GET", str "/cmd/vet", 2)] =
      some .wildcardConflict := by
  decide

/-- C6, counterexample: in the tree built by the single successful
registration of `"/search/:query"`, the root has one child (the param node)
but an empty index-byte sequence — the index-byte and child sequences of a
node holding a wildcard child do not have equal length. -/
theorem indices_children_length_mismatch :
    (buildOk [("GET", str "/search/:query", 1)]).map
      (fun t => (t.indices.length, t.children.length)) = some (0, 1) := by
  decide

/-- C8, counterexample: in the tree built by the single successful
registration of `"/src/*filepath"`, the root's only child (the catch-all
holder node) is a non-root node whose fragment is empty. -/
theorem empty_fragment_below_root :
    ((buildOk [("GET", str "/src/*filepath", 1)]).bind
      (fun t => (t.children.get? 0).map Node.path)) = some [] := by
  decide


/-! ### Structural invariants of reachable trees -/

/-- The two legal shapes of a non-root node with an empty fragment, both
produced by the catch-all encoding of `insertChild`: the catch-all holder
node itself, or the node holding the holder under its `/` index byte. -/
def emptyPathShape (n : Node) : Prop :=
  (n.nType = .catchAll ∧ n.wildChild = true) ∨
  (n.wildChild = false ∧ n.indices = ['/'] ∧ n.children.length = 1)

/-- Relation between an indexed child and its index byte: the byte is the
child fragment's first byte, except for the catch-all holder child (empty
fragment) indexed by `/`; indexed children are never param nodes. -/
def childIdxOk (pr : Node × Char) : Prop :=
  pr.1.nType ≠ .param ∧
  (pr.1.path = [] → emptyPathShape pr.1 ∧ pr.2 = '/') ∧
  (pr.1.path ≠ [] → pget pr.1.path 0 = pr.2)

/-- Local well-formedness of one node, as maintained by `addRoute`. -/
def NodeOkCore (n : Node) : Prop :=
  n.indices.Nodup ∧
  (n.wildChild = true → n.indices = [] ∧ n.children.length = 1) ∧
  (n.wildChild = false →
    (n.indices.length = n.children.length ∨
      (n.nType = .param ∧ n.indices = [] ∧ ∃ co, n.children = [co] ∧ co.nType ≠ .param ∧
        (co.path = [] ∨ pget co.path 0 = '/')))) ∧
  (∀ pr ∈ n.children.zip n.indices, childIdxOk pr) ∧
  (n.nType = .param → n.indices = [] ∨ n.indices = ['/'])

/-- Well-formedness of a non-root node. -/
def NodeOk (n : Node) : Prop :=
  NodeOkCore n ∧ (n.path = [] → emptyPathShape n)

/-- Well-formedness of a whole (sub)tree of non-root nodes. -/
def Sub (n : Node) : Prop :=
  NodeOk n ∧ ∀ c ∈ n.children, Sub c
termination_by sizeOf n
decreasing_by exact sizeOf_mem_children (by assumption)

theorem Sub_def (n : Node) :
    Sub n ↔ NodeOk n ∧ ∀ c ∈ n.children, Sub c := by
  rw [Sub]

/-- Well-formedness of the root node: the root may additionally be the fresh
zero node, is always static, and its fragment (when non-empty) starts with
`/`. -/
def RootOk (n : Node) : Prop :=
  NodeOkCore n ∧ n.nType = .static ∧
  (n.path = [] → emptyPathShape n ∨
    (n.children = [] ∧ n.indices = [] ∧ n.handle = none ∧ n.wildChild = false)) ∧
  (n.path ≠ [] → pget n.path 0 = '/')

/-- Well-formedness of the whole tree. -/
def WfTree (n : Node) : Prop :=
  RootOk n ∧ ∀ c ∈ n.children, Sub c

/-- `Below n t`: `n` is a proper descendant of `t`. -/
inductive Below : Node → Node → Prop where
  | child {c p : Node} : c ∈ p.children → Below c p
  | trans {c m p : Node} : c ∈ m.children → Below m p → Below c p

theorem sub_of_below {r n : Node} (h : ∀ c ∈ r.children, Sub c) (hb : Below n r) :
    Sub n := by
  induction hb with
  | child hc => exact h _ hc
  | trans hc _ ih => exact ((Sub_def _).mp (ih h)).2 _ hc

/-- Trees reachable from the fresh root by successful `addRoute` calls whose
paths respect the documented precondition (begin with `/`). -/
inductive Reachable : Node → Prop where
  | empty : Reachable emptyNode
  | step {t t' : Node} {m : String} {p : List Char} {hd : Handle} {f : Nat} :
      Reachable t → pget p 0 = '/' → p ≠ [] →
      addRouteF m hd f t p = some (.ok t') → Reachable t'


/-! ### Helper lemmas for the invariant proofs -/

theorem pget_drop {P : List Char} {o : Nat} (h : o < P.length) :
    pget (P.drop o) 0 = pget P o := by
  simp [pget, List.get?_drop]

theorem pget_lt_length {P : List Char} {i : Nat} (h : i < P.length) :
    P.get? i = some (pget P i) := by
  induction P generalizing i with
  | nil => simp at h
  | cons x xs ih =>
    cases i with
    | zero => rfl
    | succ m =>
      simp only [List.length_cons] at h
      exact ih (by omega)

theorem seg_head {P : List Char} {o i : Nat} (ho : o < i) (hl : o < P.length) :
    pget (seg P o i) 0 = pget P o := by
  simp only [seg, pget, List.get?_drop, Nat.add_zero, List.get?_take ho]

theorem seg_ne_nil {P : List Char} {o i : Nat} (ho : o < i) (hl : o < P.length) :
    seg P o i ≠ [] := by
  simp only [seg, ne_eq, List.drop_eq_nil_iff_le, not_le, List.length_take]
  omega

theorem seg_eq_nil {P : List Char} {o i : Nat} (ho : i ≤ o) : seg P o i = [] := by
  simp only [seg, List.drop_eq_nil_iff_le, List.length_take]
  omega

theorem drop_ne_nil {P : List Char} {o : Nat} (h : o < P.length) : P.drop o ≠ [] := by
  simp only [ne_eq, List.drop_eq_nil_iff_le, not_le]
  exact h

theorem lcpLen_le_left (a b : List Char) : lcpLen a b ≤ a.length := by
  induction a generalizing b with
  | nil => simp [lcpLen]
  | cons x xs ih =>
    cases b with
    | nil => simp [lcpLen]
    | cons y ys =>
      simp only [lcpLen]
      split
      · simpa using ih ys
      · simp

theorem lcpLen_le_right (a b : List Char) : lcpLen a b ≤ b.length := by
  induction a generalizing b with
  | nil => simp [lcpLen]
  | cons x xs ih =>
    cases b with
    | nil => simp [lcpLen]
    | cons y ys =>
      simp only [lcpLen]
      split
      · simpa using ih ys
      · simp

theorem lcpLen_pos {a b : List Char} (ha : a ≠ []) (hb : b ≠ [])
    (h : pget a 0 = pget b 0) : 0 < lcpLen a b := by
  cases a with
  | nil => exact absurd rfl ha
  | cons x xs =>
    cases b with
    | nil => exact absurd rfl hb
    | cons y ys =>
      have hxy : x = y := h
      simp only [lcpLen]
      rw [if_pos hxy]
      omega

theorem isPrefixOf_lcpLen {b a : List Char} (h : b.isPrefixOf a = true) :
    lcpLen a b = b.length := by
  induction b generalizing a with
  | nil => cases a <;> simp [lcpLen]
  | cons y ys ih =>
    cases a with
    | nil => simp [List.isPrefixOf] at h
    | cons x xs =>
      simp only [List.isPrefixOf, Bool.and_eq_true, beq_iff_eq] at h
      simp only [lcpLen, List.length_cons]
      rw [if_pos h.1.symm, ih h.2]

theorem isPrefixOf_head {b a : List Char} (h : b.isPrefixOf a = true) (hb : b ≠ []) :
    pget a 0 = pget b 0 := by
  cases b with
  | nil => exact absurd rfl hb
  | cons y ys =>
    cases a with
    | nil => simp [List.isPrefixOf] at h
    | cons x xs =>
      simp only [List.isPrefixOf, Bool.and_eq_true, beq_iff_eq] at h
      simp [pget, h.1]

theorem isPrefixOf_append_drop {b a : List Char} (h : b.isPrefixOf a = true) :
    b ++ a.drop b.length = a := by
  induction b generalizing a with
  | nil => simp
  | cons y ys ih =>
    cases a with
    | nil => simp [List.isPrefixOf] at h
    | cons x xs =>
      simp only [List.isPrefixOf, Bool.and_eq_true, beq_iff_eq] at h
      simp [h.1, ih h.2]

theorem findWild_char {l : List Char} {d : Nat} (h : findWild l = some d) :
    pget l d = ':' ∨ pget l d = '*' := by
  induction l generalizing d with
  | nil => simp [findWild] at h
  | cons c rest ih =>
    simp only [findWild] at h
    split at h
    · cases h
      simpa [pget] using (by assumption : c = ':' ∨ c = '*')
    · simp only [Option.map_eq_some'] at h
      obtain ⟨d', hd', rfl⟩ := h
      simpa [pget] using ih hd'

theorem findCharIdx_spec {idx : List Char} {c : Char} {j : Nat}
    (h : findCharIdx idx c = some j) : j < idx.length ∧ idx.get? j = some c := by
  induction idx generalizing j with
  | nil => simp [findCharIdx] at h
  | cons x rest ih =>
    simp only [findCharIdx] at h
    split at h
    · cases h
      constructor
      · simp
      · simpa using (by assumption : x = c)
    · simp only [Option.map_eq_some'] at h
      obtain ⟨j', hj', rfl⟩ := h
      have := ih hj'
      constructor
      · simp; omega
      · simpa using this.2

theorem findCharIdx_none {idx : List Char} {c : Char}
    (h : findCharIdx idx c = none) : ∀ x ∈ idx, x ≠ c := by
  induction idx with
  | nil => simp
  | cons x rest ih =>
    simp only [findCharIdx] at h
    split at h
    · simp at h
    · intro y hy
      rcases List.mem_cons.mp hy with rfl | hy2
      · assumption
      · simp only [Option.map_eq_none'] at h
        exact ih h y hy2

theorem get?_zip {α β : Type} (l1 : List α) (l2 : List β) (n : Nat) :
    (l1.zip l2).get? n = (l1.get? n).bind (fun a => (l2.get? n).map (fun b => (a, b))) := by
  induction l1 generalizing l2 n with
  | nil => simp
  | cons x xs ih =>
    cases l2 with
    | nil => simp
    | cons y ys =>
      cases n with
      | zero => simp
      | succ m => simpa using ih ys m


theorem listSwap_length {α : Type} (l : List α) (a b : Nat) :
    (listSwap l a b).length = l.length := by
  unfold listSwap
  cases hx : l.get? a <;> cases hy : l.get? b <;> simp

theorem get?_lt_length {α : Type} {l : List α} {n : Nat} {x : α}
    (h : l.get? n = some x) : n < l.length := by
  by_contra hc
  rw [List.get?_eq_none.mpr (by omega)] at h
  cases h

theorem listSwap_get? {α : Type} {l : List α} {a b : Nat} {x y : α}
    (hxa : l.get? a = some x) (hyb : l.get? b = some y) (n : Nat) :
    (listSwap l a b).get? n =
      if n = b then l.get? a else if n = a then l.get? b else l.get? n := by
  unfold listSwap
  rw [hxa, hyb]
  simp only [List.get?_set]
  by_cases hnb : n = b <;> by_cases hna : n = a
  · subst hnb
    subst hna
    rw [hxa] at hyb
    cases hyb
    simp only [hxa]
    simp
  · subst hnb
    simp only [hxa, hyb, Ne.symm hna]
    simp [Ne.symm hna]
  · subst hna
    simp only [hxa, hyb, Ne.symm hnb]
    simp [hnb, Ne.symm hnb]
  · simp [Ne.symm hna, Ne.symm hnb, hna, hnb]

theorem mem_listSwap {α : Type} {l : List α} {a b : Nat} {z : α}
    (h : z ∈ listSwap l a b) : z ∈ l := by
  unfold listSwap at h
  cases hx : l.get? a with
  | none => rw [hx] at h; exact h
  | some x =>
    cases hy : l.get? b with
    | none => rw [hx, hy] at h; exact h
    | some y =>
      rw [hx, hy] at h
      rcases List.mem_or_eq_of_mem_set h with h2 | rfl
      · rcases List.mem_or_eq_of_mem_set h2 with h3 | rfl
        · exact h3
        · exact List.get?_mem hy
      · exact List.get?_mem hx

theorem nodup_get?_ne {α : Type} {l : List α} (h : l.Nodup) {u v : Nat} (huv : u ≠ v)
    (hu : u < l.length) (hv : v < l.length) : l.get? u ≠ l.get? v := by
  rcases Nat.lt_or_ge u v with hlt | hge
  · exact (List.nodup_iff_get?_ne_get?.mp h) u v hlt hv
  · have hlt : v < u := by omega
    exact fun he => (List.nodup_iff_get?_ne_get?.mp h) v u hlt hu he.symm

theorem listSwap_nodup {α : Type} {l : List α} {a b : Nat} (h : l.Nodup) :
    (listSwap l a b).Nodup := by
  cases hx : l.get? a with
  | none => unfold listSwap; rw [hx]; exact h
  | some x =>
    cases hy : l.get? b with
    | none => unfold listSwap; rw [hx, hy]; exact h
    | some y =>
      have ha := get?_lt_length hx
      have hb := get?_lt_length hy
      rw [List.nodup_iff_get?_ne_get?]
      intro i j hij hjlen
      rw [listSwap_length] at hjlen
      rw [listSwap_get? hx hy, listSwap_get? hx hy]
      split_ifs with h1 h2 h3 h4 h5 <;>
        first
        | omega
        | (apply nodup_get?_ne h (by omega) (by omega) (by omega))

theorem listSwap_id_right {α : Type} {l : List α} {a b : Nat} (h : l.get? b = none) :
    listSwap l a b = l := by
  unfold listSwap
  rw [h]
  cases l.get? a <;> rfl

theorem listSwap_id_left {α : Type} {l : List α} {a b : Nat} (h : l.get? a = none) :
    listSwap l a b = l := by
  unfold listSwap
  rw [h]

theorem get?_exists_of_lt {α : Type} {l : List α} {n : Nat} (h : n < l.length) :
    ∃ z, l.get? n = some z := by
  cases hq : l.get? n with
  | none => rw [List.get?_eq_none] at hq; omega
  | some z => exact ⟨z, rfl⟩

theorem getElem?_zip {α β : Type} (l1 : List α) (l2 : List β) (n : Nat) :
    (l1.zip l2)[n]? = l1[n]?.bind (fun a => (l2[n]?).map (fun b => (a, b))) := by
  induction l1 generalizing l2 n with
  | nil => simp
  | cons x xs ih =>
    cases l2 with
    | nil => simp
    | cons y ys =>
      cases n with
      | zero => simp
      | succ m => simpa using ih ys m

theorem zip_listSwap {α β : Type} {l1 : List α} {l2 : List β}
    (hlen : l1.length = l2.length) (a b : Nat) :
    (listSwap l1 a b).zip (listSwap l2 a b) = listSwap (l1.zip l2) a b := by
  by_cases ha : a < l1.length
  · by_cases hb : b < l1.length
    · obtain ⟨xa, hxa⟩ := get?_exists_of_lt ha
      obtain ⟨xb, hxb⟩ := get?_exists_of_lt hb
      obtain ⟨ya, hya⟩ := get?_exists_of_lt (show a < l2.length by omega)
      obtain ⟨yb, hyb⟩ := get?_exists_of_lt (show b < l2.length by omega)
      have hza : (l1.zip l2).get? a = some (xa, ya) := by
        rw [get?_zip, hxa, hya]; rfl
      have hzb : (l1.zip l2).get? b = some (xb, yb) := by
        rw [get?_zip, hxb, hyb]; rfl
      apply List.ext
      intro n
      rw [get?_zip, listSwap_get? hxa hxb, listSwap_get? hya hyb, listSwap_get? hza hzb]
      by_cases hnb : n = b <;> by_cases hna : n = a <;> by_cases hab : a = b <;>
        simp_all [get?_zip, getElem?_zip]
    · have h1 : l1.get? b = none := List.get?_eq_none.mpr (by omega)
      have h2 : l2.get? b = none := List.get?_eq_none.mpr (by omega)
      have h3 : (l1.zip l2).get? b = none := by
        rw [get?_zip, h1]
        rfl
      rw [listSwap_id_right h1, listSwap_id_right h2, listSwap_id_right h3]
  · have hoob : l1.get? a = none := List.get?_eq_none.mpr (by omega)
    have hoob2 : l2.get? a = none := List.get?_eq_none.mpr (by omega)
    have hoob3 : (l1.zip l2).get? a = none := by
      rw [get?_zip, hoob]
      rfl
    rw [listSwap_id_left hoob, listSwap_id_left hoob2, listSwap_id_left hoob3]


theorem bubble_spec {prio : Nat} :
    ∀ (i : Nat) (ch : List Node) (idx : List Char),
      ch.length = idx.length → i < ch.length →
      (bubble ch idx i prio).1.length = ch.length ∧
      (bubble ch idx i prio).2.1.length = idx.length ∧
      (bubble ch idx i prio).2.2 < ch.length ∧
      (bubble ch idx i prio).1.get? (bubble ch idx i prio).2.2 = ch.get? i ∧
      (bubble ch idx i prio).2.1.get? (bubble ch idx i prio).2.2 = idx.get? i ∧
      (∀ z ∈ (bubble ch idx i prio).1, z ∈ ch) ∧
      (idx.Nodup → (bubble ch idx i prio).2.1.Nodup) ∧
      (∀ pr ∈ (bubble ch idx i prio).1.zip (bubble ch idx i prio).2.1, pr ∈ ch.zip idx) := by
  intro i
  induction i with
  | zero =>
    intro ch idx hlen hi
    exact ⟨rfl, rfl, hi, rfl, rfl, fun z hz => hz, fun hd => hd, fun pr hpr => hpr⟩
  | succ i ih =>
    intro ch idx hlen hi
    obtain ⟨xb, hxb⟩ := get?_exists_of_lt hi
    cases hxa : ch.get? i with
    | none =>
      rw [bubble, hxa]
      exact ⟨rfl, rfl, hi, rfl, rfl, fun z hz => hz, fun hd => hd, fun pr hpr => hpr⟩
    | some nj =>
      rw [bubble]
      simp only [hxa]
      by_cases hp : nj.priority < prio
      · rw [if_pos hp]
        have hi' : i < (listSwap ch i (i + 1)).length := by
          rw [listSwap_length]; omega
        have hlen' : (listSwap ch i (i + 1)).length = (listSwap idx i (i + 1)).length := by
          rw [listSwap_length, listSwap_length]; exact hlen
        obtain ⟨ya, hya⟩ := get?_exists_of_lt (show i < idx.length by omega)
        obtain ⟨yb, hyb⟩ := get?_exists_of_lt (show i + 1 < idx.length by omega)
        have key := ih (listSwap ch i (i + 1)) (listSwap idx i (i + 1)) hlen' hi'
        obtain ⟨k1, k2, k3, k4, k5, k6, k7, k8⟩ := key
        rw [listSwap_length] at k1 k3
        rw [listSwap_length] at k2
        refine ⟨k1, k2, k3, ?_, ?_, ?_, ?_, ?_⟩
        · rw [k4, listSwap_get? hxa hxb]
          simp
        · rw [k5, listSwap_get? hya hyb]
          simp
        · intro z hz
          exact mem_listSwap (k6 z hz)
        · intro hd
          exact k7 (listSwap_nodup hd)
        · intro pr hpr
          have h2 := k8 pr hpr
          rw [zip_listSwap hlen] at h2
          exact mem_listSwap h2
      · rw [if_neg hp]
        exact ⟨rfl, rfl, hi, rfl, rfl, fun z hz => hz, fun hd => hd, fun pr hpr => hpr⟩


theorem incrementChildPrio_spec {n : Node} {j : Nat}
    (hlen : n.children.length = n.indices.length) (hj : j < n.children.length) :
    (incrementChildPrio n j).1.path = n.path ∧
    (incrementChildPrio n j).1.wildChild = n.wildChild ∧
    (incrementChildPrio n j).1.nType = n.nType ∧
    (incrementChildPrio n j).1.handle = n.handle ∧
    (incrementChildPrio n j).1.priority = n.priority ∧
    (incrementChildPrio n j).1.children.length = n.children.length ∧
    (incrementChildPrio n j).1.indices.length = n.indices.length ∧
    (incrementChildPrio n j).2 < n.children.length ∧
    (incrementChildPrio n j).1.children.get? (incrementChildPrio n j).2 =
      n.children.get? j ∧
    (incrementChildPrio n j).1.indices.get? (incrementChildPrio n j).2 =
      n.indices.get? j ∧
    (∀ z ∈ (incrementChildPrio n j).1.children, z ∈ n.children) ∧
    (n.indices.Nodup → (incrementChildPrio n j).1.indices.Nodup) ∧
    (∀ pr ∈ (incrementChildPrio n j).1.children.zip (incrementChildPrio n j).1.indices,
      pr ∈ n.children.zip n.indices) := by
  have key := @bubble_spec
    ((match n.children.get? j with | some c => c.priority | none => 0) + 1)
    j n.children n.indices hlen hj
  obtain ⟨k1, k2, k3, k4, k5, k6, k7, k8⟩ := key
  unfold incrementChildPrio
  simp only [Node.path_setIdx, Node.path_setChildren, Node.wild_setIdx,
    Node.wild_setChildren, Node.nType_setIdx, Node.nType_setChildren,
    Node.handle_setIdx, Node.handle_setChildren, Node.prio_setIdx,
    Node.prio_setChildren, Node.indices_setIdx, Node.children_setIdx,
    Node.children_setChildren]
  exact ⟨trivial, trivial, trivial, trivial, trivial, k1, k2, k3, k4, k5, k6, k7, k8⟩


section MoreAccessors

variable (n : Node)

@[simp] theorem Node.path_setPath (p : List Char) : (n.setPath p).path = p := by cases n; rfl

@[simp] theorem Node.indices_setPath (p : List Char) : (n.setPath p).indices = n.indices := by
  cases n; rfl

@[simp] theorem Node.children_setPath (p : List Char) : (n.setPath p).children = n.children := by
  cases n; rfl

@[simp] theorem Node.wild_setPath (p : List Char) : (n.setPath p).wildChild = n.wildChild := by
  cases n; rfl

@[simp] theorem Node.nType_setPath (p : List Char) : (n.setPath p).nType = n.nType := by
  cases n; rfl

@[simp] theorem Node.handle_setPath (p : List Char) : (n.setPath p).handle = n.handle := by
  cases n; rfl

@[simp] theorem Node.prio_setPath (p : List Char) : (n.setPath p).priority = n.priority := by
  cases n; rfl

@[simp] theorem Node.path_setWild (w : Bool) : (n.setWild w).path = n.path := by cases n; rfl

@[simp] theorem Node.indices_setWild (w : Bool) : (n.setWild w).indices = n.indices := by
  cases n; rfl

@[simp] theorem Node.children_setWild (w : Bool) : (n.setWild w).children = n.children := by
  cases n; rfl

@[simp] theorem Node.wild_setWild (w : Bool) : (n.setWild w).wildChild = w := by cases n; rfl

@[simp] theorem Node.nType_setWild (w : Bool) : (n.setWild w).nType = n.nType := by
  cases n; rfl

@[simp] theorem Node.handle_setWild (w : Bool) : (n.setWild w).handle = n.handle := by
  cases n; rfl

@[simp] theorem Node.prio_setWild (w : Bool) : (n.setWild w).priority = n.priority := by
  cases n; rfl

@[simp] theorem Node.path_setHandle (h : Option (List (String × Handle))) :
    (n.setHandle h).path = n.path := by cases n; rfl

@[simp] theorem Node.indices_setHandle (h : Option (List (String × Handle))) :
    (n.setHandle h).indices = n.indices := by cases n; rfl

@[simp] theorem Node.children_setHandle (h : Option (List (String × Handle))) :
    (n.setHandle h).children = n.children := by cases n; rfl

@[simp] theorem Node.wild_setHandle (h : Option (List (String × Handle))) :
    (n.setHandle h).wildChild = n.wildChild := by cases n; rfl

@[simp] theorem Node.nType_setHandle (h : Option (List (String × Handle))) :
    (n.setHandle h).nType = n.nType := by cases n; rfl

@[simp] theorem Node.handle_setHandle (h : Option (List (String × Handle))) :
    (n.setHandle h).handle = h := by cases n; rfl

@[simp] theorem Node.prio_setHandle (h : Option (List (String × Handle))) :
    (n.setHandle h).priority = n.priority := by cases n; rfl

end MoreAccessors

theorem after_takeWhile {p : Char → Bool} {l : List Char}
    (h : (l.takeWhile p).length < l.length) :
    p (pget l (l.takeWhile p).length) = false := by
  induction l with
  | nil => simp at h
  | cons x xs ih =>
    by_cases hx : p x
    · rw [List.takeWhile_cons_of_pos hx] at h ⊢
      simp only [List.length_cons, List.length_cons] at h
      have := ih (by omega)
      simpa [pget] using this
    · rw [List.takeWhile_cons_of_neg hx]
      simpa [pget] using hx

theorem mem_zip_set {α β : Type} {l : List α} {l2 : List β} {j : Nat} {a : α} {pr : α × β}
    (h : pr ∈ (l.set j a).zip l2) :
    pr ∈ l.zip l2 ∨ (pr.1 = a ∧ l2.get? j = some pr.2) := by
  obtain ⟨n, hn⟩ := List.mem_iff_get?.mp h
  rw [get?_zip, List.get?_set] at hn
  by_cases hjn : j = n
  · subst hjn
    rw [if_pos rfl] at hn
    cases hl : l.get? j with
    | none => rw [hl] at hn; cases hn
    | some x =>
      rw [hl] at hn
      cases hl2 : l2.get? j with
      | none => rw [hl2] at hn; cases hn
      | some b =>
        rw [hl2] at hn
        right
        have hpr : (a, b) = pr := by simpa using hn
        cases hpr
        exact ⟨rfl, rfl⟩
  · rw [if_neg hjn] at hn
    left
    exact List.mem_iff_get?.mpr ⟨n, by rw [get?_zip]; exact hn⟩


theorem pget_drop_add (P : List Char) (s d : Nat) :
    pget (P.drop s) d = pget P (s + d) := by
  simp [pget, List.get?_drop]

/-- `insertChild` on a fresh node (all scan entry points except the one on an
existing node, which is handled separately) produces a well-formed subtree
whose root fragment starts with `P[o]`, is empty only in the catch-all-parent
case (where `P[o]` is the `/` before the `*`), and keeps the entry node's
kind. -/
theorem insertChildF_ok {method : String} {h : Handle} {P : List Char} :
    ∀ (fuel : Nat) (n : Node) (o s : Nat) (t : Node),
      insertChildF method h P fuel n o s = some (.ok t) →
      n.children = [] → n.indices = [] → n.wildChild = false →
      o < P.length →
      (o < s ∨ (pget P o ≠ ':' ∧ pget P o ≠ '*')) →
      (s = 0 → o = 0) →
      Sub t ∧ t.nType = n.nType ∧
      (t.path = [] → pget P o = '/') ∧
      (t.path ≠ [] → pget t.path 0 = pget P o) := by
  intro fuel
  induction fuel with
  | zero =>
    intro n o s t hres
    simp [insertChildF] at hres
  | succ fuel ih =>
    intro n o s t hres hch hidx hwild ho hos hs0
    rw [insertChildF] at hres
    cases hw : findWild (P.drop s) with
    | none =>
      rw [hw] at hres
      have ht : (((n.setPath (P.drop o)).setHandle (some [(method, h)])).bumpPrio) = t :=
        Res.ok.inj (Option.some.inj hres)
      subst ht
      refine ⟨?_, by simp, ?_, ?_⟩
      · rw [Sub_def]
        refine ⟨⟨⟨?_, ?_, ?_, ?_⟩, ?_⟩, ?_⟩
        · simp [hidx]
        · intro hcw
          simp [hwild] at hcw
        · intro _
          left
          simp [hidx, hch]
        · refine ⟨?_, ?_⟩
          · intro pr hpr
            simp [hch] at hpr
          · intro hty
            left
            simp [hidx, hch]
        · intro hp
          simp only [Node.path_bumpPrio, Node.path_setHandle, Node.path_setPath] at hp
          exact absurd hp (drop_ne_nil ho)
        · intro c hc
          simp [hch] at hc
      · intro hp
        simp only [Node.path_bumpPrio, Node.path_setHandle, Node.path_setPath] at hp
        exact absurd hp (drop_ne_nil ho)
      · intro _
        simp only [Node.path_bumpPrio, Node.path_setHandle, Node.path_setPath]
        exact pget_drop ho
    | some d =>
      rw [hw] at hres
      have hdlen := findWild_lt hw
      rw [List.length_drop] at hdlen
      have hilen : s + d < P.length := by omega
      have hchar : pget P (s + d) = ':' ∨ pget P (s + d) = '*' := by
        have := findWild_char hw
        rwa [pget_drop_add] at this
      have hipos : 0 < s + d := by
        by_contra hc
        have hs : s = 0 := by omega
        have hd : d = 0 := by omega
        have := hs0 hs
        rcases hos with hlt | ⟨h1, h2⟩
        · omega
        · subst hs hd this
          simp only [Nat.add_zero] at hchar
          rcases hchar with hc1 | hc2
          · exact h1 hc1
          · exact h2 hc2
      simp only [hch] at hres
      split at hres
      · exact absurd hres (by simp)
      · split at hres
        · exact absurd hres (by simp)
        · rename_i hempt hk1
          split at hres
          · -- param wildcard branch
            rename_i hb
            split at hres
            · exact absurd hres (by simp)
            · rename_i hog
              have hoi : o < s + d := by
                rcases hos with hlt | ⟨h1, _⟩
                · omega
                · rcases Nat.lt_or_ge o (s + d) with hx | hx
                  · exact hx
                  · have hoe : o = s + d ∨ o > s + d := by omega
                    rcases hoe with rfl | hgt
                    · exact absurd hb h1
                    · exact absurd ⟨hipos, hgt⟩ hog
              split at hres
              · -- the wildcard is followed by a further subpath
                rename_i hkj
                have hPk : pget P (s + d + 1 +
                    ((P.drop (s + d + 1)).takeWhile (fun c => c ≠ '/')).length) = '/' := by
                  have hlt2 : ((P.drop (s + d + 1)).takeWhile (fun c => c ≠ '/')).length <
                      (P.drop (s + d + 1)).length := by
                    rw [List.length_drop]
                    omega
                  have h3 := after_takeWhile hlt2
                  rw [pget_drop_add] at h3
                  have h4 := of_decide_eq_false h3
                  exact Decidable.not_not.mp h4
                split at hres
                · exact absurd hres (by simp)
                · rename_i tc heq
                  have ht : _ = t := Res.ok.inj (Option.some.inj hres)
                  subst ht
                  obtain ⟨hsubc, hntyc, hemptyc, hheadc⟩ :=
                    ih emptyNode _ (s + d + 1) tc heq rfl rfl rfl hkj
                      (Or.inr (by rw [hPk]; exact ⟨by decide, by decide⟩))
                      (by omega)
                  refine ⟨?_, by simp, ?_, ?_⟩
                  · rw [Sub_def]
                    refine ⟨⟨⟨?_, ?_, ?_, ?_⟩, ?_⟩, ?_⟩
                    · simp [hidx]
                    · intro _
                      simp [hidx]
                    · intro hcw
                      simp at hcw
                    · refine ⟨?_, ?_⟩
                      · intro pr hpr
                        simp [hidx] at hpr
                      · intro hty
                        left
                        simp [hidx]
                    · intro hp
                      simp only [Node.path_bumpPrio, Node.path_setWild,
                        Node.path_setChildren, Node.path_setPath] at hp
                      exact absurd hp (seg_ne_nil hoi ho)
                    · intro c hc
                      simp only [Node.children_bumpPrio, Node.children_setWild,
                        Node.children_setChildren, List.mem_singleton] at hc
                      subst hc
                      rw [Sub_def]
                      refine ⟨⟨⟨?_, ?_, ?_, ?_⟩, ?_⟩, ?_⟩
                      · simp
                      · intro hcw
                        simp at hcw
                      · intro _
                        right
                        refine ⟨by simp, by simp, tc, by simp, ?_, ?_⟩
                        · rw [hntyc]
                          decide
                        · by_cases hce : tc.path = []
                          · exact Or.inl hce
                          · right
                            rw [hheadc hce, hPk]
                      · refine ⟨?_, ?_⟩
                        · intro pr hpr
                          simp at hpr
                        · intro hty
                          left
                          simp
                      · intro hp
                        simp only [Node.path_bumpPrio, Node.path_setChildren] at hp
                        exact absurd hp (seg_ne_nil (by omega) (by omega))
                      · intro c hc
                        simp only [Node.children_bumpPrio, Node.children_setChildren,
                          List.mem_singleton] at hc
                        subst hc
                        exact hsubc
                  · intro hp
                    simp only [Node.path_bumpPrio, Node.path_setWild,
                      Node.path_setChildren, Node.path_setPath] at hp
                    exact absurd hp (seg_ne_nil hoi ho)
                  · intro _
                    simp only [Node.path_bumpPrio, Node.path_setWild,
                      Node.path_setChildren, Node.path_setPath]
                    exact seg_head hoi ho
                · exact absurd hres (by simp)
              · -- the wildcard runs to the end of the path
                rename_i hkj
                split at hres
                · exact absurd hres (by simp)
                · rename_i tc heq
                  have ht : _ = t := Res.ok.inj (Option.some.inj hres)
                  subst ht
                  obtain ⟨hsubc, hntyc, hemptyc, hheadc⟩ :=
                    ih (Node.mk [] [] [] false .param none 0) _ (s + d + 1) tc heq
                      rfl rfl rfl hilen (Or.inl (by omega)) (by omega)
                  refine ⟨?_, by simp, ?_, ?_⟩
                  · rw [Sub_def]
                    refine ⟨⟨⟨?_, ?_, ?_, ?_⟩, ?_⟩, ?_⟩
                    · simp [hidx]
                    · intro _
                      simp [hidx]
                    · intro hcw
                      simp at hcw
                    · refine ⟨?_, ?_⟩
                      · intro pr hpr
                        simp [hidx] at hpr
                      · intro hty
                        left
                        simp [hidx]
                    · intro hp
                      simp only [Node.path_bumpPrio, Node.path_setWild,
                        Node.path_setChildren, Node.path_setPath] at hp
                      exact absurd hp (seg_ne_nil hoi ho)
                    · intro c hc
                      simp only [Node.children_bumpPrio, Node.children_setWild,
                        Node.children_setChildren, List.mem_singleton] at hc
                      subst hc
                      exact hsubc
                  · intro hp
                    simp only [Node.path_bumpPrio, Node.path_setWild,
                      Node.path_setChildren, Node.path_setPath] at hp
                    exact absurd hp (seg_ne_nil hoi ho)
                  · intro _
                    simp only [Node.path_bumpPrio, Node.path_setWild,
                      Node.path_setChildren, Node.path_setPath]
                    exact seg_head hoi ho
                · exact absurd hres (by simp)
          · -- catch-all wildcard branch
            rename_i hb
            have hstar : pget P (s + d) = '*' := by
              rcases hchar with hc1 | hc2
              · exact absurd hc1 hb
              · exact hc2
            split at hres
            · exact absurd hres (by simp)
            · rename_i hklen
              split at hres
              · exact absurd hres (by simp)
              · rename_i hiz
                split at hres
                · exact absurd hres (by simp)
                · rename_i hslash
                  split at hres
                  · exact absurd hres (by simp)
                  · rename_i hole
                    rw [Decidable.not_not] at hslash
                    have ht : _ = t := Res.ok.inj (Option.some.inj hres)
                    subst ht
                    have hiz' : s + d ≠ 0 := hiz
                    have hole' : ¬ o > s + d - 1 := hole
                    refine ⟨?_, by simp, ?_, ?_⟩
                    · rw [Sub_def]
                      refine ⟨⟨⟨?_, ?_, ?_, ?_⟩, ?_⟩, ?_⟩
                      · simp
                      · intro hcw
                        simp [hwild] at hcw
                      · intro _
                        left
                        simp
                      · refine ⟨?_, ?_⟩
                        · intro pr hpr
                          simp only [Node.children_bumpPrio, Node.children_setIdx,
                            Node.children_setChildren, Node.indices_bumpPrio,
                            Node.indices_setIdx, List.zip_cons_cons, List.zip_nil_right,
                            List.mem_singleton] at hpr
                          subst hpr
                          refine ⟨by simp, ?_, ?_⟩
                          · intro _
                            exact ⟨Or.inl ⟨rfl, rfl⟩, hslash⟩
                          · intro hne
                            exact absurd rfl hne
                        · intro hty
                          right
                          simp [hslash]
                      · intro hp
                        simp only [Node.path_bumpPrio, Node.path_setIdx,
                          Node.path_setChildren, Node.path_setPath] at hp
                        right
                        refine ⟨by simp [hwild], by simp [hslash], by simp⟩
                      · intro c hc
                        simp only [Node.children_bumpPrio, Node.children_setIdx,
                          Node.children_setChildren, List.mem_singleton] at hc
                        subst hc
                        rw [Sub_def]
                        refine ⟨⟨⟨?_, ?_, ?_, ?_⟩, ?_⟩, ?_⟩
                        · simp
                        · intro _
                          simp
                        · intro hcw
                          simp at hcw
                        · refine ⟨?_, ?_⟩
                          · intro pr hpr
                            simp at hpr
                          · intro hty
                            left
                            simp
                        · intro _
                          exact Or.inl ⟨rfl, rfl⟩
                        · intro c2 hc2
                          simp at hc2
                          subst hc2
                          rw [Sub_def]
                          refine ⟨⟨⟨?_, ?_, ?_, ?_⟩, ?_⟩, ?_⟩
                          · simp
                          · intro hcw
                            simp at hcw
                          · intro _
                            left
                            simp
                          · refine ⟨?_, ?_⟩
                            · intro pr hpr
                              simp at hpr
                            · intro hty
                              left
                              simp
                          · intro hp
                            exact absurd hp (drop_ne_nil (by omega))
                          · intro c3 hc3
                            simp at hc3
                    · intro hp
                      simp only [Node.path_bumpPrio, Node.path_setIdx,
                        Node.path_setChildren, Node.path_setPath] at hp
                      have hoe : o = s + d - 1 := by
                        by_contra hne
                        have : o < s + d - 1 := by omega
                        exact absurd hp (seg_ne_nil this ho)
                      rw [hoe]
                      exact hslash
                    · intro hp
                      simp only [Node.path_bumpPrio, Node.path_setIdx,
                        Node.path_setChildren, Node.path_setPath] at hp ⊢
                      have hoe : o < s + d - 1 := by
                        by_contra hne
                        have : s + d - 1 ≤ o := by omega
                        exact hp (seg_eq_nil this)
                      exact seg_head hoe ho

/-- `insertChild` entered on an existing node whose remaining path starts with
a wildcard byte (`addRoute` line 124 with `c` equal to `:` or `*`): success
forces the node childless, and the node keeps its fragment and kind while
gaining the wildcard child subtree. -/
theorem insertChildF_wildentry {method : String} {hd : Handle} {P : List Char}
    {fuel : Nat} {n t : Node}
    (hres : insertChildF method hd P (fuel + 1) n 0 0 = some (.ok t))
    (hok : NodeOk n) (hwild : n.wildChild = false)
    (hlen : 0 < P.length)
    (hb : pget P 0 = ':' ∨ pget P 0 = '*') :
    Sub t ∧ t.path = n.path ∧ t.nType = n.nType := by
  rw [insertChildF] at hres
  have hw : findWild (P.drop 0) = some 0 := by
    cases P with
    | nil => simp at hlen
    | cons c cs =>
      simp only [List.drop_zero, findWild]
      rw [if_pos]
      simpa [pget] using hb
  rw [hw] at hres
  split at hres
  · rename_i heq0
    cases heq0
  · rename_i d hd0
    obtain rfl : (0 : Nat) = d := Option.some.inj hd0
    simp only [Nat.add_zero] at hres
    split at hres
    · exact absurd hres (by simp)
    · rename_i hch0
      have hch : n.children = [] := by
        rw [Bool.not_eq_false, List.isEmpty_iff] at hch0
        exact hch0
      have hidx : n.indices = [] := by
        obtain ⟨⟨_, _, hc, _⟩, _⟩ := hok
        rcases hc hwild with hl | ⟨_, _, co, hco, _⟩
        · rw [hch] at hl
          simpa using List.eq_nil_of_length_eq_zero hl
        · rw [hch] at hco
          cases hco
      have hpne : n.path ≠ [] := by
        intro hp
        obtain ⟨_, hshape⟩ := hok
        rcases hshape hp with ⟨_, hw1⟩ | ⟨_, _, hc1⟩
        · rw [hwild] at hw1
          cases hw1
        · rw [hch] at hc1
          simp at hc1
      split at hres
      · exact absurd hres (by simp)
      · rename_i hk1
        split at hres
        · -- param wildcard at position 0
          rename_i hcolon
          split at hres
          · exact absurd hres (by simp)
          · simp only [Nat.add_zero, Nat.zero_add, lt_self_iff_false, if_false,
              Nat.lt_irrefl] at hres
            split at hres
            · -- the wildcard is followed by a further subpath
              rename_i hkj
              have hPk : pget P (1 + ((P.drop 1).takeWhile (fun c => c ≠ '/')).length)
                  = '/' := by
                have hlt2 : ((P.drop 1).takeWhile (fun c => c ≠ '/')).length <
                    (P.drop 1).length := by
                  rw [List.length_drop]
                  omega
                have h3 := after_takeWhile hlt2
                rw [pget_drop_add] at h3
                have h4 := of_decide_eq_false h3
                exact Decidable.not_not.mp h4
              split at hres
              · exact absurd hres (by simp)
              · rename_i tc heq
                have ht : _ = t := Res.ok.inj (Option.some.inj hres)
                subst ht
                obtain ⟨hsubc, hntyc, hemptyc, hheadc⟩ :=
                  insertChildF_ok fuel emptyNode _ 1 tc heq rfl rfl rfl hkj
                    (Or.inr (by rw [hPk]; exact ⟨by decide, by decide⟩))
                    (by omega)
                refine ⟨?_, by simp, by simp⟩
                rw [Sub_def]
                refine ⟨⟨⟨?_, ?_, ?_, ?_⟩, ?_⟩, ?_⟩
                · simp [hidx]
                · intro _
                  simp [hidx]
                · intro hcw
                  simp at hcw
                · refine ⟨?_, ?_⟩
                  · intro pr hpr
                    simp [hidx] at hpr
                  · intro hty
                    left
                    simp [hidx]
                · intro hp
                  simp only [Node.path_bumpPrio, Node.path_setWild,
                    Node.path_setChildren] at hp
                  exact absurd hp hpne
                · intro c hc
                  simp only [Node.children_bumpPrio, Node.children_setWild,
                    Node.children_setChildren, List.mem_singleton] at hc
                  subst hc
                  rw [Sub_def]
                  refine ⟨⟨⟨?_, ?_, ?_, ?_⟩, ?_⟩, ?_⟩
                  · simp
                  · intro hcw
                    simp at hcw
                  · intro _
                    right
                    refine ⟨by simp, by simp, tc, by simp, ?_, ?_⟩
                    · rw [hntyc]
                      decide
                    · by_cases hce : tc.path = []
                      · exact Or.inl hce
                      · right
                        rw [hheadc hce, hPk]
                  · refine ⟨?_, ?_⟩
                    · intro pr hpr
                      simp at hpr
                    · intro hty
                      left
                      simp
                  · intro hp
                    simp only [Node.path_bumpPrio, Node.path_setChildren,
                      Node.path_mk] at hp
                    exact absurd hp (seg_ne_nil (by omega) (by omega))
                  · intro c hc
                    simp only [Node.children_bumpPrio, Node.children_setChildren,
                      List.mem_singleton] at hc
                    subst hc
                    exact hsubc
              · exact absurd hres (by simp)
            · -- the wildcard runs to the end of the path
              split at hres
              · exact absurd hres (by simp)
              · rename_i tc heq
                have ht : _ = t := Res.ok.inj (Option.some.inj hres)
                subst ht
                obtain ⟨hsubc, hntyc, hemptyc, hheadc⟩ :=
                  insertChildF_ok fuel (Node.mk [] [] [] false .param none 0) _ 1 tc heq
                    rfl rfl rfl hlen (Or.inl (by omega)) (by omega)
                refine ⟨?_, by simp, by simp⟩
                rw [Sub_def]
                refine ⟨⟨⟨?_, ?_, ?_, ?_⟩, ?_⟩, ?_⟩
                · simp [hidx]
                · intro _
                  simp [hidx]
                · intro hcw
                  simp at hcw
                · refine ⟨?_, ?_⟩
                  · intro pr hpr
                    simp [hidx] at hpr
                  · intro hty
                    left
                    simp [hidx]
                · intro hp
                  simp only [Node.path_bumpPrio, Node.path_setWild,
                    Node.path_setChildren] at hp
                  exact absurd hp hpne
                · intro c hc
                  simp only [Node.children_bumpPrio, Node.children_setWild,
                    Node.children_setChildren, List.mem_singleton] at hc
                  subst hc
                  exact hsubc
              · exact absurd hres (by simp)
        · -- catch-all wildcard at position 0: a Go runtime fault, never ok
          split at hres
          · exact absurd hres (by simp)
          · split at hres
            · exact absurd hres (by simp)
            · rename_i hiz
              exact absurd trivial hiz

theorem pget_take_zero {l : List Char} {i : Nat} (h : 0 < i) :
    pget (l.take i) 0 = pget l 0 := by
  cases l with
  | nil => simp
  | cons x xs =>
    cases i with
    | zero => omega
    | succ i => simp [pget]

theorem take_nonempty {l : List Char} {i : Nat} (hl : l ≠ []) (h : 0 < i) :
    l.take i ≠ [] := by
  simp only [ne_eq, List.take_eq_nil_iff]
  push_neg
  exact ⟨by omega, hl⟩

theorem lcpLen_lt_ne {a b : List Char} (ha : lcpLen a b < a.length)
    (hb : lcpLen a b < b.length) :
    pget a (lcpLen a b) ≠ pget b (lcpLen a b) := by
  induction a generalizing b with
  | nil => simp at ha
  | cons x xs ih =>
    cases b with
    | nil => simp at hb
    | cons y ys =>
      by_cases hxy : x = y
      · rw [lcpLen, if_pos hxy] at ha hb ⊢
        simp only [List.length_cons] at ha hb
        simpa [pget] using ih (by omega) (by omega)
      · rw [lcpLen, if_neg hxy] at ha hb ⊢
        simpa [pget] using hxy

theorem length_one_get? {A : Type} {l : List A} {x : A} (hlen : l.length = 1)
    (h0 : l.get? 0 = some x) : l = [x] := by
  cases l with
  | nil => simp at hlen
  | cons z zs =>
    simp only [List.length_cons] at hlen
    have : zs = [] := List.eq_nil_of_length_eq_zero (by omega)
    subst this
    simp only [List.get?] at h0
    cases h0
    rfl

theorem bubble_other {prio : Nat} :
    ∀ (i : Nat) (ch : List Node) (idx : List Char),
      ch.length = idx.length → i < ch.length →
      ∀ m : Nat, m ≠ (bubble ch idx i prio).2.2 →
      ∃ m2, m2 ≠ i ∧ (bubble ch idx i prio).1.get? m = ch.get? m2 ∧
        (bubble ch idx i prio).2.1.get? m = idx.get? m2 := by
  intro i
  induction i with
  | zero =>
    intro ch idx hlen hi m hm
    exact ⟨m, hm, rfl, rfl⟩
  | succ i ih =>
    intro ch idx hlen hi m hm
    obtain ⟨xb, hxb⟩ := get?_exists_of_lt hi
    cases hxa : ch.get? i with
    | none =>
      rw [bubble, hxa] at hm ⊢
      exact ⟨m, hm, rfl, rfl⟩
    | some nj =>
      rw [bubble] at hm ⊢
      simp only [hxa] at hm ⊢
      by_cases hp : nj.priority < prio
      · rw [if_pos hp] at hm ⊢
        have hi2 : i < (listSwap ch i (i + 1)).length := by
          rw [listSwap_length]; omega
        have hlen2 : (listSwap ch i (i + 1)).length = (listSwap idx i (i + 1)).length := by
          rw [listSwap_length, listSwap_length]; exact hlen
        obtain ⟨ya, hya⟩ := get?_exists_of_lt (show i < idx.length by omega)
        obtain ⟨yb, hyb⟩ := get?_exists_of_lt (show i + 1 < idx.length by omega)
        obtain ⟨m2, hm2i, hcm, him⟩ :=
          ih (listSwap ch i (i + 1)) (listSwap idx i (i + 1)) hlen2 hi2 m hm
        by_cases hcase : m2 = i + 1
        · subst hcase
          refine ⟨i, by omega, ?_, ?_⟩
          · rw [hcm, listSwap_get? hxa hxb]
            simp
          · rw [him, listSwap_get? hya hyb]
            simp
        · refine ⟨m2, hcase, ?_, ?_⟩
          · rw [hcm, listSwap_get? hxa hxb, if_neg hcase, if_neg hm2i]
          · rw [him, listSwap_get? hya hyb, if_neg hcase, if_neg hm2i]
      · rw [if_neg hp] at hm ⊢
        exact ⟨m, hm, rfl, rfl⟩

theorem incrementChildPrio_other {n : Node} {j : Nat}
    (hlen : n.children.length = n.indices.length) (hj : j < n.children.length) :
    ∀ m : Nat, m ≠ (incrementChildPrio n j).2 →
    ∃ m2, m2 ≠ j ∧
      (incrementChildPrio n j).1.children.get? m = n.children.get? m2 ∧
      (incrementChildPrio n j).1.indices.get? m = n.indices.get? m2 := by
  intro m hm
  unfold incrementChildPrio at hm ⊢
  simp only [Node.children_setIdx, Node.children_setChildren, Node.indices_setIdx] at hm ⊢
  exact bubble_other j n.children n.indices hlen hj m hm


theorem emptyPathShape_congr {a b : Node} (h : emptyPathShape a)
    (hi : b.indices = a.indices) (hc : b.children = a.children)
    (hw : b.wildChild = a.wildChild) (ht : b.nType = a.nType) : emptyPathShape b := by
  rcases h with ⟨h1, h2⟩ | ⟨h1, h2, h3⟩
  · exact Or.inl ⟨by rw [ht, h1], by rw [hw, h2]⟩
  · exact Or.inr ⟨by rw [hw, h1], by rw [hi, h2], by rw [hc, h3]⟩

theorem NodeOkCore_congr {a b : Node} (h : NodeOkCore a)
    (hi : b.indices = a.indices) (hc : b.children = a.children)
    (hw : b.wildChild = a.wildChild) (ht : b.nType = a.nType) : NodeOkCore b := by
  obtain ⟨hA, hB, hC, hE, hF⟩ := h
  refine ⟨?_, ?_, ?_, ?_, ?_⟩
  · rw [hi]; exact hA
  · intro hbw
    rw [hi, hc]
    exact hB (by rw [hw] at hbw; exact hbw)
  · intro hbw
    rw [hi, hc, ht]
    exact hC (by rw [hw] at hbw; exact hbw)
  · intro pr hpr
    rw [hc, hi] at hpr
    exact hE pr hpr
  · intro hbt
    rw [hi]
    exact hF (by rw [ht] at hbt; exact hbt)

theorem Sub_congr {a b : Node} (h : Sub a) (hp : b.path = a.path)
    (hi : b.indices = a.indices) (hc : b.children = a.children)
    (hw : b.wildChild = a.wildChild) (ht : b.nType = a.nType) : Sub b := by
  rw [Sub_def] at h ⊢
  obtain ⟨⟨hcore, hsh⟩, hch⟩ := h
  refine ⟨⟨NodeOkCore_congr hcore hi hc hw ht, ?_⟩, ?_⟩
  · intro hbp
    exact emptyPathShape_congr (hsh (by rw [hp] at hbp; exact hbp)) hi hc hw ht
  · intro c hcm
    rw [hc] at hcm
    exact hch c hcm

theorem addRouteF_sub {method : String} {hd : Handle} :
    ∀ (fuel : Nat) (n : Node) (path : List Char) (t : Node),
      addRouteF method hd fuel n path = some (.ok t) →
      Sub n → path ≠ [] →
      (n.path = [] → pget path 0 = '/') →
      (n.path ≠ [] → pget path 0 = pget n.path 0) →
      (n.nType = .param → n.path.isPrefixOf path ∧
        (path.length ≤ n.path.length ∨ pget path n.path.length = '/')) →
      Sub t ∧ t.nType = n.nType ∧ (t.path = [] ↔ n.path = []) ∧
      (t.path ≠ [] → pget t.path 0 = pget n.path 0) := by
  intro fuel
  induction fuel with
  | zero =>
    intro n path t hres
    simp [addRouteF] at hres
  | succ fuel ih =>
    intro n path t hres hsub hpne hempty hhead hparam
    obtain ⟨⟨⟨hA, hB, hC, hE, hF⟩, hshape⟩, hchsub⟩ := (Sub_def n).mp hsub
    rw [addRouteF] at hres
    split at hres
    · -- fresh-node branch: impossible for a well-formed subtree node
      rename_i hfresh
      have hpe : n.path = [] := by
        simpa [List.isEmpty_iff] using hfresh.1
      have hce : n.children = [] := by
        simpa [List.isEmpty_iff] using hfresh.2
      rcases hshape hpe with ⟨_, hw1⟩ | ⟨_, _, hc1⟩
      · have := hB hw1
        rw [hce] at this
        simp at this
      · rw [hce] at hc1
        simp at hc1
    · rename_i hnf
      by_cases hsplit : lcpLen path n.path < n.path.length
      · -- split edge
        simp only [if_pos hsplit] at hres
        have hnpne : n.path ≠ [] := by
          intro h2
          rw [h2] at hsplit
          simp at hsplit
        have hntyp : n.nType ≠ .param := by
          intro hty
          have h2 := isPrefixOf_lcpLen (hparam hty).1
          omega
        have hipos : 0 < lcpLen path n.path := lcpLen_pos hpne hnpne (hhead hnpne)
        have hsubclone : Sub (Node.mk (n.path.drop (lcpLen path n.path)) n.indices n.children
            n.wildChild .static n.handle n.priority) := by
          rw [Sub_def]
          refine ⟨⟨⟨?_, ?_, ?_, ?_, ?_⟩, ?_⟩, ?_⟩
          · simpa using hA
          · intro hcw2
            simpa using hB (by simpa using hcw2)
          · intro hcw2
            rcases hC (by simpa using hcw2) with h2 | ⟨hty, _⟩
            · left
              simpa using h2
            · exact absurd hty hntyp
          · intro pr hpr
            exact hE pr (by simpa using hpr)
          · intro hty2
            rw [Node.nType_mk] at hty2
            cases hty2
          · intro hp2
            rw [Node.path_mk] at hp2
            exact absurd hp2 (drop_ne_nil hsplit)
          · intro c hc
            rw [Node.children_mk] at hc
            exact hchsub c hc
        split at hres
        · -- the path continues past the split point
          rename_i hip
          have hpd : path.drop (lcpLen path n.path) ≠ [] := drop_ne_nil hip
          split at hres
          · rename_i h2
            rw [Node.wildChild_mk] at h2
            cases h2
          · rename_i h2
            split at hres
            · rename_i h3
              exact absurd (by simpa using h3.1) hntyp
            · rename_i h3
              split at hres
              · -- an index equal to the diverging byte cannot exist
                rename_i j hfind2
                exfalso
                obtain ⟨hj1, hj2⟩ := findCharIdx_spec hfind2
                rw [Node.indices_mk] at hj1 hj2
                have hj0 : j = 0 := by simpa using hj1
                subst hj0
                have hxc : pget n.path (lcpLen path n.path) =
                    pget (path.drop (lcpLen path n.path)) 0 := by
                  simpa using hj2
                have hne2 := lcpLen_lt_ne hip hsplit
                apply hne2
                rw [hxc]
                simpa using (pget_drop_add path (lcpLen path n.path) 0).symm
              · rename_i hfind2
                split at hres
                · -- append a fresh child below the split node
                  rename_i hcwp
                  have hcp2 : pget (path.drop (lcpLen path n.path)) 0 = pget path (lcpLen path n.path) := by
                    simpa using pget_drop_add path (lcpLen path n.path) 0
                  have hxcne : pget n.path (lcpLen path n.path) ≠ pget (path.drop (lcpLen path n.path)) 0 := by
                    intro h5
                    exact lcpLen_lt_ne hip hsplit (by rw [hcp2] at h5; exact h5.symm)
                  have hlen0 : (((Node.mk (path.take (lcpLen path n.path)) [pget n.path (lcpLen path n.path)] [Node.mk (n.path.drop (lcpLen path n.path)) n.indices n.children n.wildChild .static n.handle n.priority] false n.nType none n.priority).setIdx ((Node.mk (path.take (lcpLen path n.path)) [pget n.path (lcpLen path n.path)] [Node.mk (n.path.drop (lcpLen path n.path)) n.indices n.children n.wildChild .static n.handle n.priority] false n.nType none n.priority).indices ++ [pget (path.drop (lcpLen path n.path)) 0])).setChildren ((Node.mk (path.take (lcpLen path n.path)) [pget n.path (lcpLen path n.path)] [Node.mk (n.path.drop (lcpLen path n.path)) n.indices n.children n.wildChild .static n.handle n.priority] false n.nType none n.priority).children ++ [emptyNode])).children.length = (((Node.mk (path.take (lcpLen path n.path)) [pget n.path (lcpLen path n.path)] [Node.mk (n.path.drop (lcpLen path n.path)) n.indices n.children n.wildChild .static n.handle n.priority] false n.nType none n.priority).setIdx ((Node.mk (path.take (lcpLen path n.path)) [pget n.path (lcpLen path n.path)] [Node.mk (n.path.drop (lcpLen path n.path)) n.indices n.children n.wildChild .static n.handle n.priority] false n.nType none n.priority).indices ++ [pget (path.drop (lcpLen path n.path)) 0])).setChildren ((Node.mk (path.take (lcpLen path n.path)) [pget n.path (lcpLen path n.path)] [Node.mk (n.path.drop (lcpLen path n.path)) n.indices n.children n.wildChild .static n.handle n.priority] false n.nType none n.priority).children ++ [emptyNode])).indices.length := by
                    simp
                  have hj : (((Node.mk (path.take (lcpLen path n.path)) [pget n.path (lcpLen path n.path)] [Node.mk (n.path.drop (lcpLen path n.path)) n.indices n.children n.wildChild .static n.handle n.priority] false n.nType none n.priority).indices ++ [pget (path.drop (lcpLen path n.path)) 0]).length - 1) < (((Node.mk (path.take (lcpLen path n.path)) [pget n.path (lcpLen path n.path)] [Node.mk (n.path.drop (lcpLen path n.path)) n.indices n.children n.wildChild .static n.handle n.priority] false n.nType none n.priority).setIdx ((Node.mk (path.take (lcpLen path n.path)) [pget n.path (lcpLen path n.path)] [Node.mk (n.path.drop (lcpLen path n.path)) n.indices n.children n.wildChild .static n.handle n.priority] false n.nType none n.priority).indices ++ [pget (path.drop (lcpLen path n.path)) 0])).setChildren ((Node.mk (path.take (lcpLen path n.path)) [pget n.path (lcpLen path n.path)] [Node.mk (n.path.drop (lcpLen path n.path)) n.indices n.children n.wildChild .static n.handle n.priority] false n.nType none n.priority).children ++ [emptyNode])).children.length := by
                    simp
                  obtain ⟨s1, s2, s3, s4, s5, s6, s7, s8, s9, s10, s11, s12, s13⟩ :=
                    incrementChildPrio_spec hlen0 hj
                  have hother := incrementChildPrio_other hlen0 hj
                  have hgetE : (((Node.mk (path.take (lcpLen path n.path)) [pget n.path (lcpLen path n.path)] [Node.mk (n.path.drop (lcpLen path n.path)) n.indices n.children n.wildChild .static n.handle n.priority] false n.nType none n.priority).setIdx ((Node.mk (path.take (lcpLen path n.path)) [pget n.path (lcpLen path n.path)] [Node.mk (n.path.drop (lcpLen path n.path)) n.indices n.children n.wildChild .static n.handle n.priority] false n.nType none n.priority).indices ++ [pget (path.drop (lcpLen path n.path)) 0])).setChildren ((Node.mk (path.take (lcpLen path n.path)) [pget n.path (lcpLen path n.path)] [Node.mk (n.path.drop (lcpLen path n.path)) n.indices n.children n.wildChild .static n.handle n.priority] false n.nType none n.priority).children ++ [emptyNode])).children.get? (((Node.mk (path.take (lcpLen path n.path)) [pget n.path (lcpLen path n.path)] [Node.mk (n.path.drop (lcpLen path n.path)) n.indices n.children n.wildChild .static n.handle n.priority] false n.nType none n.priority).indices ++ [pget (path.drop (lcpLen path n.path)) 0]).length - 1) = some emptyNode := by
                    simp
                  have hgetC : (((Node.mk (path.take (lcpLen path n.path)) [pget n.path (lcpLen path n.path)] [Node.mk (n.path.drop (lcpLen path n.path)) n.indices n.children n.wildChild .static n.handle n.priority] false n.nType none n.priority).setIdx ((Node.mk (path.take (lcpLen path n.path)) [pget n.path (lcpLen path n.path)] [Node.mk (n.path.drop (lcpLen path n.path)) n.indices n.children n.wildChild .static n.handle n.priority] false n.nType none n.priority).indices ++ [pget (path.drop (lcpLen path n.path)) 0])).setChildren ((Node.mk (path.take (lcpLen path n.path)) [pget n.path (lcpLen path n.path)] [Node.mk (n.path.drop (lcpLen path n.path)) n.indices n.children n.wildChild .static n.handle n.priority] false n.nType none n.priority).children ++ [emptyNode])).indices.get? (((Node.mk (path.take (lcpLen path n.path)) [pget n.path (lcpLen path n.path)] [Node.mk (n.path.drop (lcpLen path n.path)) n.indices n.children n.wildChild .static n.handle n.priority] false n.nType none n.priority).indices ++ [pget (path.drop (lcpLen path n.path)) 0]).length - 1) = some (pget (path.drop (lcpLen path n.path)) 0) := by
                    simp
                  have hNodup2 : (((Node.mk (path.take (lcpLen path n.path)) [pget n.path (lcpLen path n.path)] [Node.mk (n.path.drop (lcpLen path n.path)) n.indices n.children n.wildChild .static n.handle n.priority] false n.nType none n.priority).setIdx ((Node.mk (path.take (lcpLen path n.path)) [pget n.path (lcpLen path n.path)] [Node.mk (n.path.drop (lcpLen path n.path)) n.indices n.children n.wildChild .static n.handle n.priority] false n.nType none n.priority).indices ++ [pget (path.drop (lcpLen path n.path)) 0])).setChildren ((Node.mk (path.take (lcpLen path n.path)) [pget n.path (lcpLen path n.path)] [Node.mk (n.path.drop (lcpLen path n.path)) n.indices n.children n.wildChild .static n.handle n.priority] false n.nType none n.priority).children ++ [emptyNode])).indices.Nodup := by
                    simp [hxcne]
                  split at hres
                  · exact absurd hres (by simp)
                  · rename_i tn heqI
                    rw [insertChild] at heqI
                    obtain ⟨hsubn, hntyn, hemptyn, hheadn⟩ :=
                      insertChildF_ok _ emptyNode 0 0 tn heqI rfl rfl rfl
                        (List.length_pos.mpr hpd) (Or.inr hcwp) (fun _ => rfl)
                    have hnshape : tn.path = [] → emptyPathShape tn :=
                      ((Sub_def tn).mp hsubn).1.2
                    have ht : _ = t := Res.ok.inj (Option.some.inj hres)
                    subst ht
                    refine ⟨?_, ?_, ?_, ?_⟩
                    · rw [Sub_def]
                      refine ⟨⟨⟨?_, ?_, ?_, ?_, ?_⟩, ?_⟩, ?_⟩
                      · rw [Node.indices_setChildren, Node.indices_bumpPrio]
                        exact s12 hNodup2
                      · intro hcw2
                        rw [Node.wild_setChildren, Node.wild_bumpPrio, s2] at hcw2
                        simp at hcw2
                      · intro _
                        left
                        rw [Node.indices_setChildren, Node.indices_bumpPrio,
                          Node.children_setChildren, Node.children_bumpPrio,
                          s7, List.length_set, s6]
                        simp
                      · intro pr hpr
                        simp only [Node.children_setChildren, Node.indices_setChildren,
                          Node.indices_bumpPrio, Node.children_bumpPrio] at hpr
                        obtain ⟨m, hm⟩ := List.mem_iff_get?.mp hpr
                        rw [get?_zip] at hm
                        by_cases hmr : m = (incrementChildPrio (((Node.mk (path.take (lcpLen path n.path)) [pget n.path (lcpLen path n.path)] [Node.mk (n.path.drop (lcpLen path n.path)) n.indices n.children n.wildChild .static n.handle n.priority] false n.nType none n.priority).setIdx ((Node.mk (path.take (lcpLen path n.path)) [pget n.path (lcpLen path n.path)] [Node.mk (n.path.drop (lcpLen path n.path)) n.indices n.children n.wildChild .static n.handle n.priority] false n.nType none n.priority).indices ++ [pget (path.drop (lcpLen path n.path)) 0])).setChildren ((Node.mk (path.take (lcpLen path n.path)) [pget n.path (lcpLen path n.path)] [Node.mk (n.path.drop (lcpLen path n.path)) n.indices n.children n.wildChild .static n.handle n.priority] false n.nType none n.priority).children ++ [emptyNode])) (((Node.mk (path.take (lcpLen path n.path)) [pget n.path (lcpLen path n.path)] [Node.mk (n.path.drop (lcpLen path n.path)) n.indices n.children n.wildChild .static n.handle n.priority] false n.nType none n.priority).indices ++ [pget (path.drop (lcpLen path n.path)) 0]).length - 1)).2
                        · subst hmr
                          rw [List.get?_set, if_pos rfl] at hm
                          rw [s9, hgetE, s10, hgetC] at hm
                          simp at hm
                          subst hm
                          refine ⟨?_, ?_, ?_⟩
                          · show tn.nType ≠ NType.param
                            rw [hntyn]
                            decide
                          · intro hcp
                            exact ⟨hnshape hcp, hemptyn hcp⟩
                          · intro hcp
                            exact hheadn hcp
                        · rw [List.get?_set, if_neg (fun hh => hmr hh.symm)] at hm
                          obtain ⟨m2, hm2j, hcm, him⟩ := hother m hmr
                          rw [hcm, him] at hm
                          have hj1 : (((Node.mk (path.take (lcpLen path n.path)) [pget n.path (lcpLen path n.path)] [Node.mk (n.path.drop (lcpLen path n.path)) n.indices n.children n.wildChild .static n.handle n.priority] false n.nType none n.priority).indices ++ [pget (path.drop (lcpLen path n.path)) 0]).length - 1) = 1 := by simp
                          rw [hj1] at hm2j
                          have hm2lt : m2 < 2 := by
                            cases hg : (((Node.mk (path.take (lcpLen path n.path)) [pget n.path (lcpLen path n.path)] [Node.mk (n.path.drop (lcpLen path n.path)) n.indices n.children n.wildChild .static n.handle n.priority] false n.nType none n.priority).setIdx ((Node.mk (path.take (lcpLen path n.path)) [pget n.path (lcpLen path n.path)] [Node.mk (n.path.drop (lcpLen path n.path)) n.indices n.children n.wildChild .static n.handle n.priority] false n.nType none n.priority).indices ++ [pget (path.drop (lcpLen path n.path)) 0])).setChildren ((Node.mk (path.take (lcpLen path n.path)) [pget n.path (lcpLen path n.path)] [Node.mk (n.path.drop (lcpLen path n.path)) n.indices n.children n.wildChild .static n.handle n.priority] false n.nType none n.priority).children ++ [emptyNode])).children.get? m2 with
                            | none =>
                              rw [hg] at hm
                              simp at hm
                            | some e =>
                              have h6 := get?_lt_length hg
                              simpa using h6
                          have hm2v : m2 = 0 := by omega
                          subst hm2v
                          simp at hm
                          subst hm
                          refine ⟨?_, ?_, ?_⟩
                          · show NType.static ≠ NType.param
                            decide
                          · intro hp2
                            rw [Node.path_mk] at hp2
                            exact absurd hp2 (drop_ne_nil hsplit)
                          · intro _
                            show pget (n.path.drop (lcpLen path n.path)) 0 = _
                            exact pget_drop hsplit
                      · intro hty
                        rw [Node.nType_setChildren, Node.nType_bumpPrio, s3] at hty
                        exact absurd (by simpa using hty) hntyp
                      · intro hp2
                        rw [Node.path_setChildren, Node.path_bumpPrio, s1] at hp2
                        simp only [Node.path_setChildren, Node.path_setIdx,
                          Node.path_mk] at hp2
                        exact absurd hp2 (take_nonempty hpne hipos)
                      · intro e he
                        simp only [Node.children_setChildren, Node.children_bumpPrio] at he
                        obtain ⟨m, hm⟩ := List.mem_iff_get?.mp he
                        by_cases hmr : m = (incrementChildPrio (((Node.mk (path.take (lcpLen path n.path)) [pget n.path (lcpLen path n.path)] [Node.mk (n.path.drop (lcpLen path n.path)) n.indices n.children n.wildChild .static n.handle n.priority] false n.nType none n.priority).setIdx ((Node.mk (path.take (lcpLen path n.path)) [pget n.path (lcpLen path n.path)] [Node.mk (n.path.drop (lcpLen path n.path)) n.indices n.children n.wildChild .static n.handle n.priority] false n.nType none n.priority).indices ++ [pget (path.drop (lcpLen path n.path)) 0])).setChildren ((Node.mk (path.take (lcpLen path n.path)) [pget n.path (lcpLen path n.path)] [Node.mk (n.path.drop (lcpLen path n.path)) n.indices n.children n.wildChild .static n.handle n.priority] false n.nType none n.priority).children ++ [emptyNode])) (((Node.mk (path.take (lcpLen path n.path)) [pget n.path (lcpLen path n.path)] [Node.mk (n.path.drop (lcpLen path n.path)) n.indices n.children n.wildChild .static n.handle n.priority] false n.nType none n.priority).indices ++ [pget (path.drop (lcpLen path n.path)) 0]).length - 1)).2
                        · subst hmr
                          rw [List.get?_set, if_pos rfl, s9, hgetE] at hm
                          simp at hm
                          subst hm
                          exact hsubn
                        · rw [List.get?_set, if_neg (fun hh => hmr hh.symm)] at hm
                          obtain ⟨m2, hm2j, hcm, him⟩ := hother m hmr
                          rw [hcm] at hm
                          have hj1 : (((Node.mk (path.take (lcpLen path n.path)) [pget n.path (lcpLen path n.path)] [Node.mk (n.path.drop (lcpLen path n.path)) n.indices n.children n.wildChild .static n.handle n.priority] false n.nType none n.priority).indices ++ [pget (path.drop (lcpLen path n.path)) 0]).length - 1) = 1 := by simp
                          rw [hj1] at hm2j
                          have hm2lt : m2 < 2 := by
                            simpa using get?_lt_length hm
                          have hm2v : m2 = 0 := by omega
                          subst hm2v
                          simp at hm
                          subst hm
                          exact hsubclone
                    · rw [Node.nType_setChildren, Node.nType_bumpPrio, s3]
                      simp
                    · rw [Node.path_setChildren, Node.path_bumpPrio, s1]
                      simp only [Node.path_setChildren, Node.path_setIdx, Node.path_mk]
                      constructor
                      · intro h5
                        exact absurd h5 (take_nonempty hpne hipos)
                      · intro h5
                        exact absurd h5 hnpne
                    · intro h5
                      rw [Node.path_setChildren, Node.path_bumpPrio, s1]
                      simp only [Node.path_setChildren, Node.path_setIdx, Node.path_mk,
                        pget_take_zero hipos]
                      exact hhead hnpne
                  · exact absurd hres (by simp)
                · -- wildcard head below the split node
                  rename_i hcwp
                  have hb : pget (path.drop (lcpLen path n.path)) 0 = ':' ∨
                      pget (path.drop (lcpLen path n.path)) 0 = '*' := by
                    by_contra h5
                    push_neg at h5
                    exact hcwp ⟨h5.1, h5.2⟩
                  have hok1 : NodeOk (Node.mk (path.take (lcpLen path n.path))
                      [pget n.path (lcpLen path n.path)]
                      [Node.mk (n.path.drop (lcpLen path n.path)) n.indices n.children
                        n.wildChild .static n.handle n.priority]
                      false n.nType none n.priority) := by
                    refine ⟨⟨?_, ?_, ?_, ?_, ?_⟩, ?_⟩
                    · simp
                    · intro hcw2
                      rw [Node.wildChild_mk] at hcw2
                      cases hcw2
                    · intro _
                      left
                      simp
                    · intro pr hpr
                      simp only [Node.children_mk, Node.indices_mk, List.zip_cons_cons,
                        List.zip_nil_right, List.mem_singleton] at hpr
                      subst hpr
                      refine ⟨?_, ?_, ?_⟩
                      · show NType.static ≠ NType.param
                        decide
                      · intro hp2
                        rw [Node.path_mk] at hp2
                        exact absurd hp2 (drop_ne_nil hsplit)
                      · intro _
                        show pget (n.path.drop (lcpLen path n.path)) 0 = _
                        exact pget_drop hsplit
                    · intro hty
                      exact absurd (by simpa using hty) hntyp
                    · intro hp2
                      rw [Node.path_mk] at hp2
                      exact absurd hp2 (take_nonempty hpne hipos)
                  rw [insertChild] at hres
                  obtain ⟨hsubt, hpt, hnt⟩ :=
                    insertChildF_wildentry hres hok1 rfl (List.length_pos.mpr hpd) hb
                  refine ⟨hsubt, ?_, ?_, ?_⟩
                  · rw [hnt, Node.nType_mk]
                  · rw [hpt, Node.path_mk]
                    constructor
                    · intro h5
                      exact absurd h5 (take_nonempty hpne hipos)
                    · intro h5
                      exact absurd h5 hnpne
                  · intro h5
                    rw [hpt, Node.path_mk, pget_take_zero hipos]
                    exact hhead hnpne
        · -- the path ends at or before the split point
          rename_i hnip
          split at hres
          · -- leaf on the split node
            rename_i hieq
            split at hres
            · rename_i hnone
              have ht : _ = t := Res.ok.inj (Option.some.inj hres)
              subst ht
              have htake : path.take (lcpLen path n.path) = path := by
                rw [hieq]
                exact List.take_length path
              refine ⟨?_, by simp, ?_, ?_⟩
              · rw [Sub_def]
                refine ⟨⟨⟨?_, ?_, ?_, ?_, ?_⟩, ?_⟩, ?_⟩
                · simp
                · intro hcw2
                  simp at hcw2
                · intro _
                  left
                  simp
                · intro pr hpr
                  simp only [Node.children_setHandle, Node.children_bumpPrio,
                    Node.indices_setHandle, Node.indices_bumpPrio, Node.children_mk,
                    Node.indices_mk, List.zip_cons_cons, List.zip_nil_right,
                    List.mem_singleton] at hpr
                  subst hpr
                  refine ⟨?_, ?_, ?_⟩
                  · show NType.static ≠ NType.param
                    decide
                  · intro hp2
                    rw [Node.path_mk] at hp2
                    exact absurd hp2 (drop_ne_nil hsplit)
                  · intro _
                    show pget (n.path.drop (lcpLen path n.path)) 0 = _
                    exact pget_drop hsplit
                · intro hty
                  exact absurd (by simpa using hty) hntyp
                · intro hp2
                  simp only [Node.path_bumpPrio, Node.path_setHandle, Node.path_mk] at hp2
                  exact absurd hp2 (take_nonempty hpne hipos)
                · intro c hc
                  simp only [Node.children_bumpPrio, Node.children_setHandle,
                    Node.children_mk, List.mem_singleton] at hc
                  subst hc
                  exact hsubclone
              · simp only [Node.path_bumpPrio, Node.path_setHandle, Node.path_mk, htake]
                constructor
                · intro h5
                  exact absurd h5 hpne
                · intro h5
                  exact absurd h5 hnpne
              · intro h5
                simp only [Node.path_bumpPrio, Node.path_setHandle, Node.path_mk, htake]
                exact hhead hnpne
            · rename_i hm hsome
              rw [Node.handle_mk] at hsome
              cases hsome
          · rename_i hineq
            have := lcpLen_le_left path n.path
            omega
      · -- no split
        simp only [if_neg hsplit] at hres
        have hilcp : lcpLen path n.path = n.path.length := by
          have := lcpLen_le_right path n.path
          omega
        rw [hilcp] at hres
        split at hres
        · -- the path continues past this node
          rename_i hip
          split at hres
          · -- wildcard child: descend (tree.go lines 78-91)
            rename_i hw
            obtain ⟨hBi, hBl⟩ := hB hw
            have hpd : path.drop n.path.length ≠ [] := drop_ne_nil hip
            split at hres
            · exact absurd hres (by simp)
            · rename_i w rest hchn
              rw [Node.children_bumpPrio] at hchn
              have hrest : rest = [] := by
                have h2 := hBl
                rw [hchn] at h2
                simpa using h2
              subst hrest
              have hwsub : Sub w := hchsub w (by rw [hchn]; simp)
              split at hres
              · rename_i hpre
                split at hres
                · rename_i hcond
                  split at hres
                  · exact absurd hres (by simp)
                  · rename_i w2 heq2
                    have ht : _ = t := Res.ok.inj (Option.some.inj hres)
                    subst ht
                    obtain ⟨hsubw, hq2, hq3, hq4⟩ :=
                      ih w _ w2 heq2 hwsub hpd
                        (by
                          intro hwp
                          rcases hcond with hlen | hslash
                          · exfalso
                            rw [hwp] at hlen
                            simp only [List.length_nil, ge_iff_le, Nat.le_zero] at hlen
                            exact hpd (List.eq_nil_of_length_eq_zero hlen)
                          · rw [hwp] at hslash
                            simpa using hslash)
                        (fun hwp => isPrefixOf_head hpre hwp)
                        (by
                          intro _
                          refine ⟨hpre, ?_⟩
                          rcases hcond with hlen | hslash
                          · exact Or.inl (by omega)
                          · exact Or.inr hslash)
                    refine ⟨?_, by simp, by simp, fun h2 => by simp⟩
                    rw [Sub_def]
                    refine ⟨⟨⟨?_, ?_, ?_, ?_, ?_⟩, ?_⟩, ?_⟩
                    · simp [hBi]
                    · intro _
                      simp [hBi]
                    · intro hcw
                      simp [hw] at hcw
                    · intro pr hpr
                      simp [hBi] at hpr
                    · intro _
                      left
                      simp [hBi]
                    · intro hp2
                      rcases hshape (by simpa using hp2) with ⟨h1, h2⟩ | ⟨h1, h2, h3⟩
                      · left
                        exact ⟨by simp [h1], by simp [h2]⟩
                      · rw [hw] at h1
                        cases h1
                    · intro c hc
                      simp only [Node.children_setChildren, List.mem_singleton] at hc
                      subst hc
                      exact hsubw
                  · exact absurd hres (by simp)
                · exact absurd hres (by simp)
              · exact absurd hres (by simp)
          · rename_i hnw
            split at hres
            · -- param continuation (tree.go lines 95-100)
              rename_i hcond95
              obtain ⟨h95t, h95c, h95l⟩ := hcond95
              have hwf : n.wildChild = false := by simpa using hnw
              have hpd : path.drop n.path.length ≠ [] := drop_ne_nil hip
              split at hres
              · exact absurd hres (by simp)
              · rename_i w rest hchn
                rw [Node.children_bumpPrio] at hchn
                have hrest : rest = [] := by
                  have h2 := h95l
                  rw [hchn] at h2
                  simpa using h2
                subst hrest
                have hwsub : Sub w := hchsub w (by rw [hchn]; simp)
                have hwspec : w.nType ≠ .param ∧ (w.path = [] ∨ pget w.path 0 = '/') := by
                  rcases hC hwf with hlen | ⟨_, hidx0, co, hco, hcot, hcop⟩
                  · rcases hF h95t with hi0 | hi1
                    · rw [hi0, hchn] at hlen
                      simp at hlen
                    · have hpair : (w, '/') ∈ n.children.zip n.indices := by
                        rw [hchn, hi1]
                        simp
                      obtain ⟨ht1, ht2, ht3⟩ := hE _ hpair
                      refine ⟨ht1, ?_⟩
                      by_cases hwp : w.path = []
                      · exact Or.inl hwp
                      · exact Or.inr (ht3 hwp)
                  · rw [hchn] at hco
                    obtain rfl : w = co := by
                      exact (List.cons.inj hco).1
                    exact ⟨hcot, hcop⟩
                split at hres
                · exact absurd hres (by simp)
                · rename_i w2 heq2
                  have ht : _ = t := Res.ok.inj (Option.some.inj hres)
                  subst ht
                  obtain ⟨hsubw, hq2, hq3, hq4⟩ :=
                    ih w _ w2 heq2 hwsub hpd
                      (fun _ => h95c)
                      (by
                        intro hwp
                        rcases hwspec.2 with h2 | h2
                        · exact absurd h2 hwp
                        · rw [h95c, h2])
                      (fun hwt => absurd hwt hwspec.1)
                  have hw2shape : w2.path = [] → emptyPathShape w2 :=
                    ((Sub_def w2).mp hsubw).1.2
                  have hw2head : w2.path ≠ [] → pget w2.path 0 = '/' := by
                    intro hw2p
                    have hwp : w.path ≠ [] := fun hh => hw2p (hq3.mpr hh)
                    rcases hwspec.2 with h2 | h2
                    · exact absurd h2 hwp
                    · rw [hq4 hw2p]
                      exact h2
                  refine ⟨?_, by simp, by simp, fun h2 => by simp⟩
                  rw [Sub_def]
                  refine ⟨⟨⟨?_, ?_, ?_, ?_, ?_⟩, ?_⟩, ?_⟩
                  · simpa using hA
                  · intro hcw
                    simp [hwf] at hcw
                  · intro _
                    rcases hC hwf with hlen | ⟨_, hidx0, co, hco, hcot, hcop⟩
                    · left
                      rw [hchn] at hlen
                      simpa using hlen
                    · right
                      refine ⟨by simpa using h95t, by simpa using hidx0, w2, by simp, ?_, ?_⟩
                      · rw [hq2]
                        exact hwspec.1
                      · by_cases hw2p : w2.path = []
                        · exact Or.inl hw2p
                        · exact Or.inr (hw2head hw2p)
                  · intro pr hpr
                    simp only [Node.children_setChildren, Node.indices_setChildren,
                      Node.indices_bumpPrio] at hpr
                    rcases hF h95t with hi0 | hi1
                    · rw [hi0] at hpr
                      simp at hpr
                    · rw [hi1] at hpr
                      simp only [List.zip_cons_cons, List.zip_nil_right,
                        List.mem_singleton] at hpr
                      subst hpr
                      refine ⟨?_, ?_, ?_⟩
                      · rw [hq2]
                        exact hwspec.1
                      · intro hw2p
                        exact ⟨hw2shape hw2p, rfl⟩
                      · intro hw2p
                        exact hw2head hw2p
                  · intro hty
                    simpa using hF (by simpa using hty)
                  · intro hp2
                    rcases hshape (by simpa using hp2) with ⟨h1, h2⟩ | ⟨h1, h2, h3⟩
                    · rw [hwf] at h2
                      cases h2
                    · right
                      exact ⟨by simp [hwf], by simpa using h2, by simp⟩
                  · intro c hc
                    simp only [Node.children_setChildren, List.mem_singleton] at hc
                    subst hc
                    exact hsubw
                · exact absurd hres (by simp)
            · rename_i hncond95
              split at hres
              · -- indexed child (tree.go lines 103-111)
                rename_i j hfind
                have hwf : n.wildChild = false := by simpa using hnw
                have hpd : path.drop n.path.length ≠ [] := drop_ne_nil hip
                have hCeq : n.indices.length = n.children.length := by
                  rcases hC hwf with h2 | ⟨_, hidx0, _⟩
                  · exact h2
                  · rw [hidx0] at hfind
                    simp [findCharIdx] at hfind
                have hjspec := findCharIdx_spec hfind
                have hj : j < n.children.length := by
                  have h2 := hjspec.1
                  omega
                obtain ⟨s1, s2, s3, s4, s5, s6, s7, s8, s9, s10, s11, s12, s13⟩ :=
                  incrementChildPrio_spec hCeq.symm hj
                split at hres
                · exact absurd hres (by simp)
                · rename_i child hgc
                  rw [Node.children_bumpPrio] at hgc
                  have hgj : n.children.get? j = some child := by
                    rw [← s9]
                    exact hgc
                  have hmem : child ∈ n.children := List.mem_iff_get?.mpr ⟨j, hgj⟩
                  have hsubc := hchsub child hmem
                  have hpair : (child, pget (path.drop n.path.length) 0) ∈
                      n.children.zip n.indices := by
                    apply List.mem_iff_get?.mpr
                    refine ⟨j, ?_⟩
                    rw [get?_zip, hgj, hjspec.2]
                    rfl
                  obtain ⟨hcx1, hcx2, hcx3⟩ := hE _ hpair
                  split at hres
                  · exact absurd hres (by simp)
                  · rename_i c2 heq2
                    have ht : _ = t := Res.ok.inj (Option.some.inj hres)
                    subst ht
                    obtain ⟨hsubc2, hq2, hq3, hq4⟩ :=
                      ih child _ c2 heq2 hsubc hpd
                        (fun hcp => (hcx2 hcp).2)
                        (fun hcp => (hcx3 hcp).symm)
                        (fun hct => absurd hct hcx1)
                    have hc2shape : c2.path = [] → emptyPathShape c2 :=
                      ((Sub_def c2).mp hsubc2).1.2
                    have hiOne : n.indices = ['/'] →
                        (incrementChildPrio n j).1.indices = ['/'] := by
                      intro h1
                      have hj0 : j = 0 := by
                        have h2 := hjspec.1
                        rw [h1] at h2
                        simpa using h2
                      have hr0 : (incrementChildPrio n j).2 = 0 := by
                        have h2 := s8
                        have h3 : n.children.length = 1 := by
                          rw [← hCeq, h1]
                          rfl
                        omega
                      apply length_one_get?
                      · rw [s7, h1]
                        rfl
                      · have h4 : (incrementChildPrio n j).1.indices.get? 0 =
                            n.indices.get? j := by
                          rw [← hr0]
                          exact s10
                        rw [h4, h1, hj0]
                        rfl
                    refine ⟨?_, ?_, ?_, ?_⟩
                    · rw [Sub_def]
                      refine ⟨⟨⟨?_, ?_, ?_, ?_, ?_⟩, ?_⟩, ?_⟩
                      · rw [Node.indices_setChildren, Node.indices_bumpPrio]
                        exact s12 hA
                      · intro hcw
                        rw [Node.wild_setChildren, Node.wild_bumpPrio, s2, hwf] at hcw
                        cases hcw
                      · intro _
                        left
                        rw [Node.indices_setChildren, Node.indices_bumpPrio,
                          Node.children_setChildren, Node.children_bumpPrio,
                          s7, List.length_set, s6]
                        exact hCeq
                      · intro pr hpr
                        simp only [Node.children_setChildren, Node.indices_setChildren,
                          Node.indices_bumpPrio, Node.children_bumpPrio] at hpr
                        obtain ⟨m, hm⟩ := List.mem_iff_get?.mp hpr
                        rw [get?_zip] at hm
                        by_cases hmr : m = (incrementChildPrio n j).2
                        · subst hmr
                          rw [List.get?_set, if_pos rfl] at hm
                          have hg2 : (incrementChildPrio n j).1.children.get?
                              (incrementChildPrio n j).2 = some child := by
                            rw [s9]
                            exact hgj
                          rw [hg2, s10, hjspec.2] at hm
                          simp at hm
                          subst hm
                          refine ⟨?_, ?_, ?_⟩
                          · show c2.nType ≠ NType.param
                            rw [hq2]
                            exact hcx1
                          · intro hcp
                            exact ⟨hc2shape hcp, (hcx2 (hq3.mp hcp)).2⟩
                          · intro hcp
                            show pget c2.path 0 = _
                            rw [hq4 hcp]
                            exact hcx3 (fun hh => hcp (hq3.mpr hh))
                        · rw [List.get?_set, if_neg (fun hh => hmr hh.symm)] at hm
                          have hpr2 : pr ∈ (incrementChildPrio n j).1.children.zip
                              (incrementChildPrio n j).1.indices :=
                            List.mem_iff_get?.mpr ⟨m, by rw [get?_zip]; exact hm⟩
                          exact hE _ (s13 _ hpr2)
                      · intro hty
                        rw [Node.nType_setChildren, Node.nType_bumpPrio, s3] at hty
                        rw [Node.indices_setChildren, Node.indices_bumpPrio]
                        rcases hF hty with h1 | h1
                        · left
                          have h2 : (incrementChildPrio n j).1.indices.length = 0 := by
                            rw [s7, h1]
                            rfl
                          exact List.eq_nil_of_length_eq_zero h2
                        · right
                          exact hiOne h1
                      · intro hp2
                        rw [Node.path_setChildren, Node.path_bumpPrio, s1] at hp2
                        rcases hshape hp2 with ⟨h1, h2⟩ | ⟨h1, h2, h3⟩
                        · rw [hwf] at h2
                          cases h2
                        · right
                          refine ⟨?_, ?_, ?_⟩
                          · rw [Node.wild_setChildren, Node.wild_bumpPrio, s2]
                            exact h1
                          · rw [Node.indices_setChildren, Node.indices_bumpPrio]
                            exact hiOne h2
                          · rw [Node.children_setChildren, Node.children_bumpPrio,
                              List.length_set, s6]
                            exact h3
                      · intro e he
                        simp only [Node.children_setChildren, Node.children_bumpPrio] at he
                        rcases List.mem_or_eq_of_mem_set he with h2 | h2
                        · exact hchsub e (s11 e h2)
                        · rw [h2]
                          exact hsubc2
                    · rw [Node.nType_setChildren, Node.nType_bumpPrio]
                      exact s3
                    · rw [Node.path_setChildren, Node.path_bumpPrio, s1]
                    · intro h2
                      rw [Node.path_setChildren, Node.path_bumpPrio, s1]
                  · exact absurd hres (by simp)
              · rename_i hfind
                split at hres
                · -- append a fresh child (tree.go lines 114-121)
                  rename_i hcw
                  have hwf : n.wildChild = false := by simpa using hnw
                  have hpd : path.drop n.path.length ≠ [] := drop_ne_nil hip
                  have hc_eq : pget (path.drop n.path.length) 0 =
                      pget path n.path.length := by
                    simpa using pget_drop_add path n.path.length 0
                  have hCeq : n.indices.length = n.children.length := by
                    rcases hC hwf with h2 | ⟨hty, hidx0, co, hco, _, _⟩
                    · exact h2
                    · exfalso
                      rcases (hparam hty).2 with h5 | h5
                      · omega
                      · exact hncond95 ⟨hty, by rw [hc_eq]; exact h5, by rw [hco]; rfl⟩
                  have hcnot : ∀ x ∈ n.indices, x ≠ pget (path.drop n.path.length) 0 :=
                    findCharIdx_none hfind
                  have hNodup2 : (n.indices ++ [pget (path.drop n.path.length) 0]).Nodup := by
                    rw [List.nodup_append]
                    refine ⟨hA, List.nodup_singleton _, ?_⟩
                    intro a ha
                    simp only [List.mem_singleton]
                    exact hcnot a ha
                  simp only [List.length_append, List.length_cons, List.length_nil,
                    Nat.add_sub_cancel] at hres
                  have hlen0 : ((n.setIdx (n.indices ++ [pget (List.drop n.path.length path) 0])).setChildren
                      (n.children ++ [emptyNode])).children.length =
                      ((n.setIdx (n.indices ++ [pget (List.drop n.path.length path) 0])).setChildren
                      (n.children ++ [emptyNode])).indices.length := by
                    simp [hCeq]
                  have hj : n.indices.length <
                      ((n.setIdx (n.indices ++ [pget (List.drop n.path.length path) 0])).setChildren
                      (n.children ++ [emptyNode])).children.length := by
                    simp
                    omega
                  obtain ⟨s1, s2, s3, s4, s5, s6, s7, s8, s9, s10, s11, s12, s13⟩ :=
                    incrementChildPrio_spec hlen0 hj
                  have hother := incrementChildPrio_other hlen0 hj
                  simp only [Node.path_setChildren, Node.path_setIdx, Node.wild_setChildren,
                    Node.wild_setIdx, Node.nType_setChildren, Node.nType_setIdx,
                    Node.children_setChildren, Node.indices_setChildren,
                    Node.indices_setIdx] at s1 s2 s3 s6 s7 s8 s9 s10 s11 s12 s13 hother
                  have hgetE : (n.children ++ [emptyNode]).get? n.indices.length =
                      some emptyNode := by
                    rw [hCeq]
                    exact List.get?_concat_length _ _
                  have hgetC : (n.indices ++ [pget (List.drop n.path.length path) 0]).get?
                      n.indices.length = some (pget (List.drop n.path.length path) 0) :=
                    List.get?_concat_length _ _
                  split at hres
                  · exact absurd hres (by simp)
                  · rename_i tn heqI
                    rw [insertChild] at heqI
                    obtain ⟨hsubn, hntyn, hemptyn, hheadn⟩ :=
                      insertChildF_ok _ emptyNode 0 0 tn heqI rfl rfl rfl
                        (List.length_pos.mpr hpd) (Or.inr hcw) (fun _ => rfl)
                    have hnshape : tn.path = [] → emptyPathShape tn :=
                      ((Sub_def tn).mp hsubn).1.2
                    have ht : _ = t := Res.ok.inj (Option.some.inj hres)
                    subst ht
                    refine ⟨?_, ?_, ?_, ?_⟩
                    · rw [Sub_def]
                      refine ⟨⟨⟨?_, ?_, ?_, ?_, ?_⟩, ?_⟩, ?_⟩
                      · rw [Node.indices_setChildren, Node.indices_bumpPrio]
                        exact s12 hNodup2
                      · intro hcw2
                        rw [Node.wild_setChildren, Node.wild_bumpPrio, s2, hwf] at hcw2
                        cases hcw2
                      · intro _
                        left
                        rw [Node.indices_setChildren, Node.indices_bumpPrio,
                          Node.children_setChildren, Node.children_bumpPrio,
                          s7, List.length_set, s6]
                        simp [hCeq]
                      · intro pr hpr
                        simp only [Node.children_setChildren, Node.indices_setChildren,
                          Node.indices_bumpPrio, Node.children_bumpPrio] at hpr
                        obtain ⟨m, hm⟩ := List.mem_iff_get?.mp hpr
                        rw [get?_zip] at hm
                        by_cases hmr : m = (incrementChildPrio
                            ((n.setIdx (n.indices ++ [pget (List.drop n.path.length path) 0])).setChildren
                            (n.children ++ [emptyNode])) n.indices.length).2
                        · subst hmr
                          rw [List.get?_set, if_pos rfl] at hm
                          rw [s9, hgetE, s10, hgetC] at hm
                          simp at hm
                          subst hm
                          refine ⟨?_, ?_, ?_⟩
                          · show tn.nType ≠ NType.param
                            rw [hntyn]
                            decide
                          · intro hcp
                            exact ⟨hnshape hcp, hemptyn hcp⟩
                          · intro hcp
                            exact hheadn hcp
                        · rw [List.get?_set, if_neg (fun hh => hmr hh.symm)] at hm
                          obtain ⟨m2, hm2j, hcm, him⟩ := hother m hmr
                          rw [hcm, him] at hm
                          have hm2lt : m2 < n.children.length := by
                            cases hg : (n.children ++ [emptyNode]).get? m2 with
                            | none =>
                              rw [hg] at hm
                              cases hm
                            | some e =>
                              have := get?_lt_length hg
                              simp only [List.length_append, List.length_cons,
                                List.length_nil] at this
                              omega
                          rw [List.get?_append hm2lt,
                            List.get?_append (by omega : m2 < n.indices.length)] at hm
                          exact hE _ (List.mem_iff_get?.mpr ⟨m2, by rw [get?_zip]; exact hm⟩)
                      · intro hty
                        rw [Node.nType_setChildren, Node.nType_bumpPrio, s3] at hty
                        have hc2 : pget (List.drop n.path.length path) 0 = '/' := by
                          rcases (hparam hty).2 with h5 | h5
                          · omega
                          · rw [hc_eq]
                            exact h5
                        rcases hF hty with h1 | h1
                        · right
                          rw [Node.indices_setChildren, Node.indices_bumpPrio]
                          apply length_one_get?
                          · rw [s7]
                            simp [h1]
                          · have hr0 : (incrementChildPrio
                                ((n.setIdx (n.indices ++ [pget (List.drop n.path.length path) 0])).setChildren
                                (n.children ++ [emptyNode])) n.indices.length).2 = 0 := by
                              have h2 := s8
                              have h3 : n.children.length = 0 := by
                                rw [← hCeq, h1]
                                rfl
                              simp only [List.length_append, List.length_cons,
                                List.length_nil] at h2
                              omega
                            have h4 := s10
                            rw [hr0] at h4
                            rw [h4, h1, hc2]
                            rfl
                        · exfalso
                          rw [h1, hc2] at hfind
                          simp [findCharIdx] at hfind
                      · intro hp2
                        rw [Node.path_setChildren, Node.path_bumpPrio, s1] at hp2
                        exfalso
                        rcases hshape hp2 with ⟨_, h2⟩ | ⟨_, h2, _⟩
                        · rw [hwf] at h2
                          cases h2
                        · have hc2 : pget (List.drop n.path.length path) 0 = '/' := by
                            rw [hp2]
                            simpa using hempty hp2
                          rw [h2, hc2] at hfind
                          simp [findCharIdx] at hfind
                      · intro e he
                        simp only [Node.children_setChildren, Node.children_bumpPrio] at he
                        obtain ⟨m, hm⟩ := List.mem_iff_get?.mp he
                        by_cases hmr : m = (incrementChildPrio
                            ((n.setIdx (n.indices ++ [pget (List.drop n.path.length path) 0])).setChildren
                            (n.children ++ [emptyNode])) n.indices.length).2
                        · subst hmr
                          rw [List.get?_set, if_pos rfl, s9, hgetE] at hm
                          simp at hm
                          subst hm
                          exact hsubn
                        · rw [List.get?_set, if_neg (fun hh => hmr hh.symm)] at hm
                          obtain ⟨m2, hm2j, hcm, him⟩ := hother m hmr
                          rw [hcm] at hm
                          have hm2lt : m2 < n.children.length := by
                            have := get?_lt_length hm
                            simp only [List.length_append, List.length_cons,
                              List.length_nil] at this
                            omega
                          rw [List.get?_append hm2lt] at hm
                          exact hchsub e (List.mem_iff_get?.mpr ⟨m2, hm⟩)
                    · rw [Node.nType_setChildren, Node.nType_bumpPrio]
                      exact s3
                    · rw [Node.path_setChildren, Node.path_bumpPrio, s1]
                    · intro h2
                      rw [Node.path_setChildren, Node.path_bumpPrio, s1]
                  · exact absurd hres (by simp)
                · -- wildcard head: insertChild on the existing node (line 124)
                  rename_i hcw
                  have hwf : n.wildChild = false := by simpa using hnw
                  have hpd : path.drop n.path.length ≠ [] := drop_ne_nil hip
                  have hb : pget (path.drop n.path.length) 0 = ':' ∨
                      pget (path.drop n.path.length) 0 = '*' := by
                    by_contra h2
                    push_neg at h2
                    exact hcw ⟨h2.1, h2.2⟩
                  rw [insertChild] at hres
                  have hok : NodeOk n := ⟨⟨hA, hB, hC, hE, hF⟩, hshape⟩
                  obtain ⟨hsubt, hpt, hnt⟩ :=
                    insertChildF_wildentry hres hok hwf (List.length_pos.mpr hpd) hb
                  exact ⟨hsubt, hnt, by rw [hpt], fun h2 => by rw [hpt]⟩
        · -- the path does not continue past this node
          rename_i hnip
          split at hres
          · -- leaf registration (tree.go lines 126-140)
            rename_i hieq
            split at hres
            · rename_i hnone
              have ht : _ = t := Res.ok.inj (Option.some.inj hres)
              subst ht
              exact ⟨Sub_congr hsub (by simp) (by simp) (by simp) (by simp) (by simp),
                by simp, by simp, fun h2 => by simp⟩
            · rename_i hm hsome
              split at hres
              · exact absurd hres (by simp)
              · have ht : _ = t := Res.ok.inj (Option.some.inj hres)
                subst ht
                exact ⟨Sub_congr hsub (by simp) (by simp) (by simp) (by simp) (by simp),
                  by simp, by simp, fun h2 => by simp⟩
          · -- impossible: the common prefix cannot exceed the path
            rename_i hineq
            have := lcpLen_le_left path n.path
            omega


/-- `addRoute` on the root preserves the whole-tree invariant: either the root
is still fresh (first `insertChild`) or it behaves as an inner node. -/
theorem addRouteF_root {method : String} {hd : Handle} {fuel : Nat} {n : Node}
    {path : List Char} {t : Node}
    (hres : addRouteF method hd fuel n path = some (.ok t))
    (hwf : WfTree n) (hpne : path ≠ []) (hph : pget path 0 = '/') :
    WfTree t := by
  cases fuel with
  | zero => simp [addRouteF] at hres
  | succ fuel =>
    obtain ⟨⟨hcore, hsty, hrshape, hrhead⟩, hch⟩ := hwf
    by_cases hfresh : n.path.isEmpty = true ∧ n.children.isEmpty = true
    · rw [addRouteF, if_pos hfresh] at hres
      rw [insertChild] at hres
      have hpe : n.path = [] := by simpa [List.isEmpty_iff] using hfresh.1
      have hce : n.children = [] := by simpa [List.isEmpty_iff] using hfresh.2
      obtain ⟨hA, hB, hC, hE, hF⟩ := hcore
      have hfq : n.indices = [] ∧ n.wildChild = false := by
        rcases hrshape hpe with hsh | ⟨_, hidx, _, hw⟩
        · rcases hsh with ⟨_, hw1⟩ | ⟨_, _, hc1⟩
          · have h2 := hB hw1
            rw [hce] at h2
            simp at h2
          · rw [hce] at hc1
            simp at hc1
        · exact ⟨hidx, hw⟩
      obtain ⟨hsubt, hty, hemp, hhd⟩ :=
        insertChildF_ok _ n 0 0 t hres hce hfq.1 hfq.2
          (List.length_pos.mpr hpne)
          (Or.inr ⟨by rw [hph]; decide, by rw [hph]; decide⟩)
          (fun _ => rfl)
      obtain ⟨⟨hc2, hs2⟩, hch2⟩ := (Sub_def t).mp hsubt
      refine ⟨⟨hc2, by rw [hty, hsty], ?_, ?_⟩, hch2⟩
      · intro hp2
        exact Or.inl (hs2 hp2)
      · intro hp2
        rw [hhd hp2, hph]
    · have hsubn : Sub n := by
        rw [Sub_def]
        refine ⟨⟨hcore, ?_⟩, hch⟩
        intro hp2
        rcases hrshape hp2 with h2 | ⟨hc0, _, _, _⟩
        · exact h2
        · exact absurd ⟨by simp [hp2], by simp [hc0]⟩ hfresh
      obtain ⟨hsubt, hq2, hq3, hq4⟩ :=
        addRouteF_sub (fuel + 1) n path t hres hsubn hpne
          (fun _ => hph)
          (fun hnp => by rw [hph, hrhead hnp])
          (fun hty => by rw [hsty] at hty; cases hty)
      obtain ⟨⟨hc2, hs2⟩, hch2⟩ := (Sub_def t).mp hsubt
      refine ⟨⟨hc2, by rw [hq2, hsty], ?_, ?_⟩, hch2⟩
      · intro hp2
        exact Or.inl (hs2 hp2)
      · intro hp2
        rw [hq4 hp2]
        exact hrhead (fun h2 => hp2 (hq3.mpr h2))

/-- Every tree reachable through the public registration contract is
well-formed. -/
theorem reachable_wf {t : Node} (h : Reachable t) : WfTree t := by
  induction h with
  | empty =>
    refine ⟨⟨⟨?_, ?_, ?_, ?_, ?_⟩, rfl, ?_, ?_⟩, ?_⟩
    · simp [emptyNode]
    · intro h2
      cases h2
    · intro _
      left
      rfl
    · intro pr hpr
      simp [emptyNode] at hpr
    · intro h2
      cases h2
    · intro _
      right
      exact ⟨rfl, rfl, rfl, rfl⟩
    · intro h2
      exact absurd rfl h2
    · intro c hc
      simp [emptyNode] at hc
  | step hReach hslash hpn hadd ih =>
    exact addRouteF_root hadd ih hpn hslash

/-- The tree obtained by registering `"/src/*filepath"` into the fresh root
(used to witness the reachable-tree invariants on a concrete tree). -/
def reachTree1 : Node :=
  match buildOk [("GET", str "/src/*filepath", 1)] with
  | some t => t
  | none => emptyNode

/-- The root's only child in `reachTree1`: the empty-fragment catch-all
holder. -/
def reachTree1Child : Node :=
  match reachTree1.children with
  | c :: _ => c
  | [] => emptyNode

theorem reachTree1_reachable : Reachable reachTree1 :=
  @Reachable.step emptyNode reachTree1 "GET" (str "/src/*filepath") 1
    (2 * (str "/src/*filepath").length + 8) Reachable.empty (by decide) (by decide) rfl

/-- C6 (amended): in every tree reachable by successful `addRoute` calls, every
node's index bytes are pairwise distinct; a node carrying a wildcard child has
no index bytes and exactly one child; otherwise the index and child sequences
have equal length except at a param node awaiting its `/`-continuation (no
index bytes); whenever the `i`-th index byte and `i`-th child both exist, the
byte is the first byte of the child's fragment except for the empty-fragment
catch-all holder child, indexed by `/`; and distinctness makes the indexed
lookup step unambiguous. -/
theorem indices_agree_and_distinct :
    ∀ {t n : Node}, Reachable t → (n = t ∨ Below n t) →
      n.indices.Nodup ∧
      (n.wildChild = true → n.indices = [] ∧ n.children.length = 1) ∧
      (n.wildChild = false → n.indices.length = n.children.length ∨
        (n.nType = .param ∧ n.indices = [])) ∧
      (∀ i ci b, n.children.get? i = some ci → n.indices.get? i = some b →
        (ci.path = [] ∧ b = '/') ∨ pget ci.path 0 = b) ∧
      (∀ i j, i ≠ j → i < n.indices.length → j < n.indices.length →
        n.indices.get? i ≠ n.indices.get? j) := by
  intro t n hre hb
  have hwf := reachable_wf hre
  have hcore : NodeOkCore n := by
    rcases hb with rfl | hb
    · exact hwf.1.1
    · exact ((Sub_def n).mp (sub_of_below hwf.2 hb)).1.1
  obtain ⟨hA, hB, hC, hE, hF⟩ := hcore
  refine ⟨hA, hB, ?_, ?_, ?_⟩
  · intro hwz
    rcases hC hwz with h | ⟨h1, h2, _⟩
    · exact Or.inl h
    · exact Or.inr ⟨h1, h2⟩
  · intro i ci b hci hbi
    have hpair : (ci, b) ∈ n.children.zip n.indices :=
      List.mem_iff_get?.mpr ⟨i, by rw [get?_zip, hci, hbi]; rfl⟩
    obtain ⟨_, h2, h3⟩ := hE _ hpair
    by_cases hcp : ci.path = []
    · exact Or.inl ⟨hcp, (h2 hcp).2⟩
    · exact Or.inr (h3 hcp)
  · intro i j hij hi hj
    exact nodup_get?_ne hA hij hi hj

theorem indices_agree_and_distinct_witness :
    reachTree1.indices.Nodup ∧
    (reachTree1.wildChild = true →
      reachTree1.indices = [] ∧ reachTree1.children.length = 1) ∧
    (reachTree1.wildChild = false →
      reachTree1.indices.length = reachTree1.children.length ∨
      (reachTree1.nType = .param ∧ reachTree1.indices = [])) ∧
    (∀ i ci b, reachTree1.children.get? i = some ci →
      reachTree1.indices.get? i = some b →
      (ci.path = [] ∧ b = '/') ∨ pget ci.path 0 = b) ∧
    (∀ i j, i ≠ j → i < reachTree1.indices.length → j < reachTree1.indices.length →
      reachTree1.indices.get? i ≠ reachTree1.indices.get? j) :=
  indices_agree_and_distinct reachTree1_reachable (Or.inl rfl)

/-- C8 (amended): in every tree reachable by successful `addRoute` calls, a
non-root node may have an empty fragment, but only in the two shapes created
by the catch-all encoding: the catch-all holder (catch-all kind, wildcard
child flag set) and the catch-all parent (no wildcard flag, index bytes
exactly `/`, exactly one child). -/
theorem empty_fragment_classified :
    ∀ {t n : Node}, Reachable t → Below n t → n.path = [] →
      (n.nType = .catchAll ∧ n.wildChild = true) ∨
      (n.wildChild = false ∧ n.indices = ['/'] ∧ n.children.length = 1) := by
  intro t n hre hb hp
  have hwf := reachable_wf hre
  exact ((Sub_def n).mp (sub_of_below hwf.2 hb)).1.2 hp

theorem empty_fragment_classified_witness :
    reachTree1Child.path = [] ∧
    ((reachTree1Child.nType = .catchAll ∧ reachTree1Child.wildChild = true) ∨
      (reachTree1Child.wildChild = false ∧ reachTree1Child.indices = ['/'] ∧
        reachTree1Child.children.length = 1)) := by
  have hb : Below reachTree1Child reachTree1 :=
    Below.child (List.mem_iff_get?.mpr ⟨0, rfl⟩)
  exact ⟨rfl, empty_fragment_classified reachTree1_reachable hb rfl⟩

/-- Shared helper: when `addRoute` consumes the whole path exactly at a node
that already binds the method, it panics `duplicatePath` and hands back the
node unchanged (`tree.go` lines 126-140). -/
theorem addRouteF_duplicate_eq (method : String) (h : Handle) (f : Nat) (n : Node)
    (path : List Char) (hm : List (String × Handle))
    (hnf : ¬(n.path.isEmpty = true ∧ n.children.isEmpty = true))
    (hlcp : lcpLen path n.path = path.length)
    (hns : ¬ lcpLen path n.path < n.path.length)
    (hhm : n.handle = some hm)
    (hbound : (alookup hm method).isSome = true) :
    addRouteF method h (f + 1) n path = some (.panicked .duplicatePath n) := by
  rw [addRouteF, if_neg hnf]
  simp only [if_neg hns, if_neg (show ¬ lcpLen path n.path < path.length by omega),
    if_pos hlcp, hhm, hbound, if_true]

/-- C4, counterexample: the route `"/x:a:b"` (two wildcards inside one
segment) registers successfully, but re-registering the exact same
(method, path) fails with `wildcardConflict`, not `duplicatePath`: the
re-descent hits the stored param fragment `:a` followed by `:`,
failing the wildcard-match check of `addRoute` (lines 83-90) before the
duplicate check is ever reached. -/
theorem duplicate_readd_not_duplicatePath :
    buildErr [("GET", str "/x:a:b", 1)] = none ∧
    buildErr [("GET", str "/x:a:b", 1), ("GET", str "/x:a:b", 2)] =
      some .wildcardConflict := by
  exact ⟨by decide, by decide⟩

/-- C4 (amended): re-registering a (method, path) whose re-descent consumes
the whole path at the node storing it fails with `duplicatePath`; this covers
every route whose wildcards are slash-delimited, but not routes with
consecutive wildcards inside one segment, whose re-descent fails earlier with
`wildcardConflict`. -/
theorem duplicate_add_panics_duplicatePath (method : String) (h : Handle) (f : Nat)
    (n : Node) (path : List Char) (hm : List (String × Handle))
    (hnf : ¬(n.path.isEmpty = true ∧ n.children.isEmpty = true))
    (hlcp : lcpLen path n.path = path.length)
    (hns : ¬ lcpLen path n.path < n.path.length)
    (hhm : n.handle = some hm)
    (hbound : (alookup hm method).isSome = true) :
    addRouteF method h (f + 1) n path = some (.panicked .duplicatePath n) :=
  addRouteF_duplicate_eq method h f n path hm hnf hlcp hns hhm hbound

theorem duplicate_add_panics_duplicatePath_witness :
    buildErr [("GET", str "/doc/", 1), ("GET", str "/doc/", 2)] = some .duplicatePath ∧
    addRouteF "GET" 2 10
        (Node.mk (str "/doc/") [] [] false .static (some [("GET", 1)]) 1)
        (str "/doc/") =
      some (.panicked .duplicatePath
        (Node.mk (str "/doc/") [] [] false .static (some [("GET", 1)]) 1)) := by
  refine ⟨by decide, ?_⟩
  exact duplicate_add_panics_duplicatePath "GET" 2 9
    (Node.mk (str "/doc/") [] [] false .static (some [("GET", 1)]) 1)
    (str "/doc/") [("GET", 1)]
    (by decide) (by decide) (by decide) rfl (by decide)

/-- C10, counterexample: registering `"/c"` and then failing to register
`"/c:x:"` (the second wildcard has an empty name) leaves a half-built
wildcard child with an empty fragment on the `"/c"` node; the lookup
`"/cz"`, which before the failed call returned cleanly with no handler,
afterwards hits the Go runtime fault `n.path[1:]` on the empty param
fragment (`getValueWithVars` line 297) instead of returning any handler
component at all. -/
theorem failed_add_crashes_lookup :
    ((buildOk [("GET", str "/c", 1)]).bind (fun t1 =>
      (addRoute t1 "GET" (str "/c:x:") 2).map (fun r =>
        (getValue t1 "GET" (str "/cz"), r.err, getValue r.tree "GET" (str "/cz"))))) =
    some (some (.found none none false), some .emptyWildcardName,
      some .panicked) := by
  decide

/-- C10 (amended): the `duplicatePath` failure mode does preserve lookups:
when `addRoute` fails because the whole path is consumed at a node that
already binds the method, the returned tree is the node unchanged, so every
lookup through it gives the identical result; other failure modes may leave
partially built wildcard structure behind (see the counterexample, where a
later lookup even crashes). -/
theorem duplicate_failure_preserves_lookups (method : String) (h : Handle) (f : Nat)
    (n : Node) (path : List Char) (hm : List (String × Handle))
    (hnf : ¬(n.path.isEmpty = true ∧ n.children.isEmpty = true))
    (hlcp : lcpLen path n.path = path.length)
    (hns : ¬ lcpLen path n.path < n.path.length)
    (hhm : n.handle = some hm)
    (hbound : (alookup hm method).isSome = true) :
    ∃ t', addRouteF method h (f + 1) n path = some (.panicked .duplicatePath t') ∧
      ∀ (m2 : String) (f2 : Nat) (q : List Char) (v : Vars),
        getValueF m2 f2 t' q v = getValueF m2 f2 n q v :=
  ⟨n, addRouteF_duplicate_eq method h f n path hm hnf hlcp hns hhm hbound,
    fun _ _ _ _ => rfl⟩

theorem duplicate_failure_preserves_lookups_witness :
    ∃ t', addRouteF "GET" 2 10
        (Node.mk (str "/doc/") [] [] false .static (some [("GET", 1)]) 1)
        (str "/doc/") = some (.panicked .duplicatePath t') ∧
      ∀ (m2 : String) (f2 : Nat) (q : List Char) (v : Vars),
        getValueF m2 f2 t' q v =
          getValueF m2 f2
            (Node.mk (str "/doc/") [] [] false .static (some [("GET", 1)]) 1) q v :=
  duplicate_failure_preserves_lookups "GET" 2 9
    (Node.mk (str "/doc/") [] [] false .static (some [("GET", 1)]) 1)
    (str "/doc/") [("GET", 1)]
    (by decide) (by decide) (by decide) rfl (by decide)

end HttpRouter
